import Mathlib

/-!
# Verification of the AVL-tree ordered map (`Ordered_map_via_Avl.cpp`)

A shallow embedding of the `AVLMap` / `AVLNode` / `AVLIterator` classes.

Modelling choices:
* A tree node is modelled by the inductive `Tree`; the `height` field stored in
  every `AVLNode` is carried verbatim in the `node` constructor (as an `Int`,
  the C++ `int`; the trees occurring here are far below any overflow bound).
  The `parent` pointer is not stored: the parent chain of a node is exactly the
  context of the node inside the whole tree, which the iterator model makes
  explicit (`Frame`, `Pos`).
* `K` is any linearly ordered type (the C++ code assumes a total order `<`
  together with `==`/`!=`); `T` is arbitrary.
* The C++ `assert` calls abort the program, so every operation containing one
  is embedded as an `Except Err` computation; distinct `Err` values identify
  the distinct assertion sites.
* `avlSize` (C++ `unsigned int`) is modelled as `Nat`: the specification treats
  it as the exact entry count, and no reachable behaviour below `2^32` entries
  distinguishes the two.
-/

namespace AVLSpec

/-- The node type `AVLNode<K,T>`: `leaf` is the null pointer, `node l key item height r` is a
heap node with its recorded `height` field (`int` in the source). -/
inductive Tree (K T : Type) where
  | leaf : Tree K T
  | node (left : Tree K T) (key : K) (item : T) (height : Int) (right : Tree K T) : Tree K T
  deriving DecidableEq

namespace Tree

variable {K T : Type}

/-- The `left` pointer of a node (`leaf` for the null pointer). -/
def left : Tree K T → Tree K T
  | leaf => leaf
  | node l _ _ _ _ => l

/-- The `right` pointer of a node (`leaf` for the null pointer). -/
def right : Tree K T → Tree K T
  | leaf => leaf
  | node _ _ _ _ r => r

/-- The recorded height of a node as read by `AVLNode::childHeights`:
a missing child (null pointer) counts as `-1`, otherwise the stored
`height` field is read. -/
def ht : Tree K T → Int
  | leaf => -1
  | node _ _ _ h _ => h

/-- The entries of the tree in the order produced by an in-order traversal. -/
def entries : Tree K T → List (K × T)
  | leaf => []
  | node l k i _ r => entries l ++ (k, i) :: entries r

/-- The keys of the tree in in-order. -/
def keys (t : Tree K T) : List K := (entries t).map Prod.fst

/-- The number of nodes reachable from the root of `t`. -/
def count : Tree K T → Nat
  | leaf => 0
  | node l _ _ _ r => count l + 1 + count r

/-- The true (structural) height of the tree: `-1` for the empty tree,
`1 + max` of the children's heights otherwise. -/
def realHeight : Tree K T → Int
  | leaf => -1
  | node l _ _ _ r => 1 + max (realHeight l) (realHeight r)

/-- Every recorded `height` field equals `1 + max` of the children's recorded
heights — the postcondition `AVLNode::recalcHeight` establishes. -/
def HtOk : Tree K T → Prop
  | leaf => True
  | node l _ _ h r => HtOk l ∧ HtOk r ∧ h = 1 + max l.ht r.ht

/-- The AVL balance condition, on recorded heights: at every node the
children's heights differ by at most 1. -/
def Balanced : Tree K T → Prop
  | leaf => True
  | node l _ _ _ r => Balanced l ∧ Balanced r ∧ (l.ht - r.ht).natAbs ≤ 1

/-- The combined shape invariant exactly as the specification words it, on
structural heights: at every node the subtree heights (missing child = `-1`)
differ by at most 1, and the recorded `height` field equals `1 + max` of the
children's heights. -/
def AvlNodeOk : Tree K T → Prop
  | leaf => True
  | node l _ _ h r => AvlNodeOk l ∧ AvlNodeOk r ∧
      (realHeight l - realHeight r).natAbs ≤ 1 ∧ h = 1 + max (realHeight l) (realHeight r)

/-- The local binary-search-tree condition: at every node, all left-subtree
keys are strictly below the node's key and all right-subtree keys strictly
above. -/
def BSTProp [LT K] : Tree K T → Prop
  | leaf => True
  | node l k _ _ r => (∀ x ∈ keys l, x < k) ∧ (∀ y ∈ keys r, k < y) ∧ BSTProp l ∧ BSTProp r

end Tree

variable {K T : Type} [LinearOrder K]

open Tree

/-- The function `AVLMap::findNode` followed by the key check its callers perform
(`hasKey`, `at`, `operator[]`): the item stored at `k`, if present.
The descent mirrors the `findNode` loop: stop when `node->key != key` fails,
go left when `key < node->key`, else right. -/
def lookup (k : K) : Tree K T → Option T
  | .leaf => none
  | .node l key item _ r =>
      if k = key then some item
      else if k < key then lookup k l
      else lookup k r

/-- The assertion sites of the C++ code.  An `assert` failure aborts the run,
so operations return `Except Err`. -/
inductive Err where
  /-- A caller-facing precondition assert: `remove`/`at` on an absent key,
  or advancing the end iterator. -/
  | precondition : Err
  /-- The internal consistency check `assert(abs(lh-rh) <= 2)` in
  `AVLMap::fixUp`. -/
  | balanceAssert : Err
  /-- The internal check `assert(child->right == NULL)` in
  `AVLMap::pluckNode`. -/
  | pluckAssert : Err
  deriving DecidableEq

/-- The rotation `AVLMap::rotateRight`: the left child takes the node's place, the node
becomes its right child, the left child's former right subtree becomes the
node's left subtree; heights are recomputed (`recalcHeight`) for the node
first, then for the promoted child.  The source assumes `node->left` is not
null; on any other shape the function is never invoked. -/
def rotateRight : Tree K T → Tree K T
  | .node (.node ll lk li _ lr) k i _ r =>
      .node ll lk li (1 + max ll.ht (1 + max lr.ht r.ht)) (.node lr k i (1 + max lr.ht r.ht) r)
  | t => t

/-- The rotation `AVLMap::rotateLeft`, the mirror image of `rotateRight`. -/
def rotateLeft : Tree K T → Tree K T
  | .node l k i _ (.node rl rk ri _ rr) =>
      .node (.node l k i (1 + max l.ht rl.ht) rl) rk ri (1 + max (1 + max l.ht rl.ht) rr.ht) rr
  | t => t

/-- One iteration of the `AVLMap::fixUp` loop body at one node:
`recalcHeight`, read the children's heights, run the internal consistency
assert `abs(lh-rh) <= 2`, and apply the rotation rules when one child is
higher by exactly 2 (pre-rotating the child when its own heavier side faces
inward).  `leaf` corresponds to the loop guard `node != NULL`: nothing to do. -/
def fixNode : Tree K T → Except Err (Tree K T)
  | .leaf => .ok .leaf
  | .node l k i _ r =>
      let lh := l.ht
      let rh := r.ht
      if (lh - rh).natAbs ≤ 2 then
        if lh = rh + 2 then
          let lchild := if l.left.ht < l.right.ht then rotateLeft l else l
          .ok (rotateRight (.node lchild k i (1 + max lh rh) r))
        else if lh + 2 = rh then
          let rchild := if r.left.ht > r.right.ht then rotateRight r else r
          .ok (rotateLeft (.node l k i (1 + max lh rh) rchild))
        else .ok (.node l k i (1 + max lh rh) r)
      else .error .balanceAssert

/-- The body of `AVLMap::update`: descend as `findNode` does; on an equal key
overwrite the item in place (no fix-up, flag `false`); otherwise attach a new
leaf node of recorded height 0 at the descent's end and run `fixUp` from the
new node through every ancestor on the way back up (flag `true`). -/
def updateAux (k : K) (v : T) : Tree K T → Except Err (Tree K T × Bool)
  | .leaf =>
      match fixNode (.node .leaf k v 0 .leaf) with
      | .error e => .error e
      | .ok t => .ok (t, true)
  | .node l key item h r =>
      if k = key then .ok (.node l key v h r, false)
      else if k < key then
        match updateAux k v l with
        | .error e => .error e
        | .ok (l', inserted) =>
            if inserted then
              match fixNode (.node l' key item h r) with
              | .error e => .error e
              | .ok t => .ok (t, true)
            else .ok (.node l' key item h r, false)
      else
        match updateAux k v r with
        | .error e => .error e
        | .ok (r', inserted) =>
            if inserted then
              match fixNode (.node l key item h r') with
              | .error e => .error e
              | .ok t => .ok (t, true)
            else .ok (.node l key item h r', false)

/-- The right-spine walk of `AVLMap::remove` that locates `pluck` (the
maximum-key node of the subtree) composed with `AVLMap::pluckNode` on it and
the `fixUp` steps at every node of the walked path.  At the bottom (`right`
null) `pluckNode` takes `child = node->left` when it exists and runs
`assert(child->right == NULL)`; the node is spliced out and replaced by
`child`.  Returns the plucked node's key and item together with the new
subtree. -/
def removeMax : Tree K T → Except Err (K × T × Tree K T)
  | .leaf => .error .precondition
  | .node l k i _ .leaf =>
      match l.right with
      | .leaf => .ok (k, i, l)
      | .node _ _ _ _ _ => .error .pluckAssert
  | .node l k i h (.node rl rk ri rh rr) =>
      match removeMax (.node rl rk ri rh rr) with
      | .error e => .error e
      | .ok (mk, mi, r') =>
          match fixNode (.node l k i h r') with
          | .error e => .error e
          | .ok t => .ok (mk, mi, t)

/-- The body of `AVLMap::remove`: descend as `findNode` does; reaching a null
pointer means the precondition assert
`assert(node != NULL && !(node->key < key || key < node->key))` fires.  At the
node holding the key: when it has no left child, `pluck == node` and
`pluckNode` splices its right child into its place (no assert on this branch);
otherwise the in-order predecessor is plucked out of the left subtree by
`removeMax`, its key and item overwrite the node's, and `fixUp` runs from the
pluck's former parent through every ancestor — the path `removeMax` walked,
then this node, then the callers on the way back up. -/
def removeGo (k : K) : Tree K T → Except Err (Tree K T)
  | .leaf => .error .precondition
  | .node l key item h r =>
      if k < key then
        match removeGo k l with
        | .error e => .error e
        | .ok l' => fixNode (.node l' key item h r)
      else if key < k then
        match removeGo k r with
        | .error e => .error e
        | .ok r' => fixNode (.node l key item h r')
      else
        match l with
        | .leaf => .ok r
        | .node ll lk li lh lr =>
            match removeMax (.node ll lk li lh lr) with
            | .error e => .error e
            | .ok (pk, pi, l') => fixNode (.node l' pk pi h r)

/-- The `AVLMap<K,T>` object: the `root` pointer and the `avlSize` counter. -/
structure Map (K T : Type) where
  root : Tree K T
  avlSize : Nat
  deriving DecidableEq

namespace Map

/-- The constructor `AVLMap::AVLMap()`: null root, size 0. -/
def empty : Map K T := ⟨.leaf, 0⟩

/-- The operation `AVLMap::update`: insert or overwrite; `++avlSize` exactly when a new node
was created. -/
def update (m : Map K T) (k : K) (v : T) : Except Err (Map K T) :=
  match updateAux k v m.root with
  | .error e => .error e
  | .ok (t, inserted) => .ok ⟨t, if inserted then m.avlSize + 1 else m.avlSize⟩

/-- The operation `AVLMap::remove`: `removeGo` plus the `--avlSize` performed by
`pluckNode`. -/
def remove (m : Map K T) (k : K) : Except Err (Map K T) :=
  match removeGo k m.root with
  | .error e => .error e
  | .ok t => .ok ⟨t, m.avlSize - 1⟩

/-- The observer `AVLMap::hasKey`: `findNode` plus the `node->key != key` check. -/
def hasKey (m : Map K T) (k : K) : Bool := (lookup k m.root).isSome

/-- The observer `AVLMap::at` (named `atKey` here, `at` being reserved): asserts
`node != NULL && !(node->key != key)` and returns the stored item. -/
def atKey (m : Map K T) (k : K) : Except Err T :=
  match lookup k m.root with
  | some v => .ok v
  | none => .error .precondition

/-- The observer `AVLMap::size`: returns `avlSize`. -/
def size (m : Map K T) : Nat := m.avlSize

/-- The accessor `AVLMap::operator[]`: create the entry with a default-constructed item
(`T()`) when absent, then return the item `findNode(key)->item`; after the
conditional insert the key is always present, so the dereference is the
stored item. -/
def opIndex [Inhabited T] (m : Map K T) (k : K) : Except Err (Map K T × T) :=
  match (if m.hasKey k then Except.ok m else m.update k default) with
  | .error e => .error e
  | .ok m2 =>
      match lookup k m2.root with
      | some v => .ok (m2, v)
      | none => .error .precondition

end Map

/-- The map states reachable from the empty map by finite sequences of
(completed, non-aborting) `update` and `remove` calls. -/
inductive Reachable : Map K T → Prop where
  | empty : Reachable Map.empty
  | update {m m' : Map K T} {k : K} {v : T} :
      Reachable m → m.update k v = .ok m' → Reachable m'
  | remove {m m' : Map K T} {k : K} :
      Reachable m → m.remove k = .ok m' → Reachable m'

/-!
## The iterator

`AVLIterator` stores one node pointer and walks the tree through `left`,
`right` and `parent` pointers.  In the functional model the parent chain of a
node is its context inside the whole tree: a list of `Frame`s, innermost
parent first.  A non-end iterator is a `Pos` (context plus the subtree rooted
at the referenced node); the null node of the end sentinel is `none` at the
`Option (Pos K T)` level.
-/

/-- One parent link: the parent node's own data together with the side on
which the current node hangs.  `fromLeft k i h r`: the current node is the
`left` child of a parent carrying `(k, i, h)` whose right subtree is `r`;
`fromRight l k i h` is the mirror image. -/
inductive Frame (K T : Type) where
  | fromLeft (key : K) (item : T) (height : Int) (right : Tree K T) : Frame K T
  | fromRight (left : Tree K T) (key : K) (item : T) (height : Int) : Frame K T
  deriving DecidableEq

/-- A non-end iterator position: the parent chain (innermost first) and the
subtree rooted at the referenced node (never `leaf` for positions produced by
`begin`/`advance`). -/
structure Pos (K T : Type) where
  ctx : List (Frame K T)
  focus : Tree K T
  deriving DecidableEq

/-- Rebuild one level: put the subtree back under its parent frame. -/
def plugF (t : Tree K T) : Frame K T → Tree K T
  | .fromLeft k i h r => .node t k i h r
  | .fromRight l k i h => .node l k i h t

/-- Rebuild the whole tree from a context and the subtree it surrounds. -/
def plug (ctx : List (Frame K T)) (t : Tree K T) : Tree K T :=
  ctx.foldl plugF t

/-- The `while (node->left) node = node->left;` loop shared by the iterator
constructor and `advance`: descend to the minimum node of `t`, pushing the
parent links crossed; `none` when `t` is empty. -/
def downLeft (ctx : List (Frame K T)) : Tree K T → Option (Pos K T)
  | .leaf => none
  | .node .leaf k i h r => some ⟨ctx, .node .leaf k i h r⟩
  | .node (.node ll lk li lh lr) k i h r =>
      downLeft (.fromLeft k i h r :: ctx) (.node ll lk li lh lr)

/-- The climbing loop of `AVLIterator::advance`:
`do { old = node; node = node->parent; } while (node && node->right == old)`.
`sub` is the subtree rooted at the node just climbed out of; popping a
`fromRight` frame keeps climbing, the first `fromLeft` parent is the
successor, and exhausting the chain yields the end sentinel. -/
def climbUp : List (Frame K T) → Tree K T → Option (Pos K T)
  | [], _ => none
  | .fromRight l k i h :: ctx, sub => climbUp ctx (.node l k i h sub)
  | .fromLeft k i h r :: ctx, sub => some ⟨ctx, .node sub k i h r⟩

/-- The step `AVLIterator::advance` from a non-end position: into the right subtree's
minimum when a right child exists, otherwise climb the parent chain. -/
def advancePos (p : Pos K T) : Option (Pos K T) :=
  match p.focus with
  | .leaf => none
  | .node l k i h r =>
      match r with
      | .node rl rk ri rh rr => downLeft (.fromRight l k i h :: p.ctx) (.node rl rk ri rh rr)
      | .leaf => climbUp p.ctx (.node l k i h .leaf)

/-- The operation `AVLMap::begin`: the iterator constructor applied to the root — descend
`left` to the minimum-key node, or the end sentinel for an empty tree. -/
def Map.begin (m : Map K T) : Option (Pos K T) := downLeft [] m.root

/-- The operation `AVLMap::end`: the iterator whose node pointer is null. -/
def Map.endIter (m : Map K T) : Option (Pos K T) := none

/-- Iterator `operator++` including its `assert(node != NULL)`: advancing the
end sentinel is a precondition violation. -/
def advanceIter : Option (Pos K T) → Except Err (Option (Pos K T))
  | none => .error .precondition
  | some p => .ok (advancePos p)

/-- Iterator `operator==`: node pointers are equal exactly when the two
iterators reference the same position (or both are the end sentinel). -/
def iterEq [DecidableEq K] [DecidableEq T] (a b : Option (Pos K T)) : Bool :=
  decide (a = b)

/-!
## Observers in state-passing form

The const methods of `AVLMap` are embedded as functions returning their result
together with the map they leave behind; their bodies contain no field write,
so the map component is the input itself.  These are the definitions claim
C10 is about.
-/

/-- The observer `AVLMap::hasKey` in state-passing form. -/
def Map.hasKeyRun (m : Map K T) (k : K) : Bool × Map K T := (m.hasKey k, m)

/-- The observer `AVLMap::at` in state-passing form. -/
def Map.atKeyRun (m : Map K T) (k : K) : Except Err T × Map K T := (m.atKey k, m)

/-- The observer `AVLMap::size` in state-passing form. -/
def Map.sizeRun (m : Map K T) : Nat × Map K T := (m.size, m)

/-- The observer `AVLMap::begin` in state-passing form. -/
def Map.beginRun (m : Map K T) : Option (Pos K T) × Map K T := (m.begin, m)

/-- The observer `AVLMap::end` in state-passing form. -/
def Map.endRun (m : Map K T) : Option (Pos K T) × Map K T := (m.endIter, m)

/-- Iterator advance in state-passing form over the map it iterates: the
iterator's node pointer moves, the map is untouched. -/
def advanceRun (m : Map K T) (it : Option (Pos K T)) :
    Except Err (Option (Pos K T)) × Map K T := (advanceIter it, m)

/-- Iterator equality comparison in state-passing form. -/
def iterEqRun [DecidableEq K] [DecidableEq T] (m : Map K T) (a b : Option (Pos K T)) :
    Bool × Map K T := (iterEq a b, m)

/-!
## List-level reference operations

The effect of `update` and `remove` on the in-order entry sequence is captured
by ordered insertion-or-replacement and by deletion of the first entry with
the given key.
-/

/-- Insert `(k, v)` into a key-sorted entry list, replacing the entry at `k`
when one exists. -/
def insEntry (k : K) (v : T) : List (K × T) → List (K × T)
  | [] => [(k, v)]
  | (k2, v2) :: rest =>
      if k < k2 then (k, v) :: (k2, v2) :: rest
      else if k2 < k then (k2, v2) :: insEntry k v rest
      else (k, v) :: rest

/-- Delete the first entry whose key is `k` from an entry list. -/
def eraseKey (k : K) : List (K × T) → List (K × T)
  | [] => []
  | (k2, v2) :: rest => if k = k2 then rest else (k2, v2) :: eraseKey k rest

/-- The keys of `t` are strictly ascending in in-order — the sortedness
invariant. -/
def SortedKeys (t : Tree K T) : Prop := List.Pairwise (· < ·) (keys t)

/-- The entries an iterator at position `p` has yet to produce, starting with
the referenced node's own entry: the node itself, its right subtree, and the
pending part of every ancestor frame. -/
def restCtx : List (Frame K T) → List (K × T)
  | [] => []
  | .fromLeft k i _ r :: ctx => (k, i) :: (entries r ++ restCtx ctx)
  | .fromRight _ _ _ _ :: ctx => restCtx ctx

/-- The entries an iterator at a position with context `ctx` has already
passed over, its focus subtree aside. -/
def doneCtx : List (Frame K T) → List (K × T)
  | [] => []
  | .fromLeft _ _ _ _ :: ctx => doneCtx ctx
  | .fromRight l k i _ :: ctx => doneCtx ctx ++ (entries l ++ [(k, i)])

/-- The entry sequence still to be produced from position `p` on. -/
def toVisit (p : Pos K T) : List (K × T) :=
  match p.focus with
  | .leaf => []
  | .node _ k i _ r => (k, i) :: (entries r ++ restCtx p.ctx)

/-!
## Concrete example states

A short run used to exhibit the theorems on explicit inputs:
`update 1 10; update 2 20; update 3 30` (the third insert triggers the
right-right rotation at the root) and then `remove 2`.
-/

/-- The map after `update 1 10` on the empty map. -/
def exm1 : Map Int Int := ⟨.node .leaf 1 10 0 .leaf, 1⟩

/-- The map after a further `update 2 20`. -/
def exm2 : Map Int Int := ⟨.node .leaf 1 10 1 (.node .leaf 2 20 0 .leaf), 2⟩

/-- The map after a further `update 3 30`; the fix-up performed a left
rotation at the root. -/
def exm3 : Map Int Int := ⟨.node (.node .leaf 1 10 0 .leaf) 2 20 1 (.node .leaf 3 30 0 .leaf), 3⟩

/-- The map after a further `remove 2`: the in-order predecessor (key 1) was
copied into the root and its node plucked. -/
def exm4 : Map Int Int := ⟨.node .leaf 1 10 1 (.node .leaf 3 30 0 .leaf), 2⟩

/-!
## Basic facts about heights, keys and sortedness
-/

theorem ht_ge {t : Tree K T} (hH : HtOk t) : -1 ≤ t.ht := by
  induction t with
  | leaf => simp [Tree.ht]
  | node l k i h0 r ihl ihr =>
    obtain ⟨hl, hr, he⟩ := hH
    have h1 := ihl hl
    have h2 := ihr hr
    simp only [Tree.ht] at *
    omega

theorem exists_node_of_ht_nonneg {t : Tree K T} (h : 0 ≤ t.ht) :
    ∃ l k i h0 r, t = Tree.node l k i h0 r := by
  cases t with
  | leaf => simp [Tree.ht] at h
  | node l k i h0 r => exact ⟨l, k, i, h0, r, rfl⟩

theorem ht_eq_realHeight {t : Tree K T} (hH : HtOk t) : t.ht = realHeight t := by
  induction t with
  | leaf => rfl
  | node l k i h0 r ihl ihr =>
    obtain ⟨hl, hr, he⟩ := hH
    show h0 = 1 + max (realHeight l) (realHeight r)
    rw [he, ihl hl, ihr hr]

theorem avlNodeOk_of_htok_balanced {t : Tree K T} (hH : HtOk t) (hB : Balanced t) :
    AvlNodeOk t := by
  induction t with
  | leaf => trivial
  | node l k i h0 r ihl ihr =>
    obtain ⟨hl, hr, he⟩ := hH
    obtain ⟨bl, br, hd⟩ := hB
    exact ⟨ihl hl bl, ihr hr br,
      by rw [← ht_eq_realHeight hl, ← ht_eq_realHeight hr]; exact hd,
      by rw [← ht_eq_realHeight hl, ← ht_eq_realHeight hr]; exact he⟩

theorem keys_leaf : keys (Tree.leaf : Tree K T) = [] := rfl

theorem keys_node {l : Tree K T} {k : K} {i : T} {h0 : Int} {r : Tree K T} :
    keys (Tree.node l k i h0 r) = keys l ++ k :: keys r := by
  simp [Tree.keys, Tree.entries]

theorem mem_keys {t : Tree K T} {x : K} : x ∈ keys t ↔ ∃ v, (x, v) ∈ entries t := by
  constructor
  · intro hx
    obtain ⟨⟨a, b⟩, hab, hx2⟩ := List.mem_map.mp hx
    exact ⟨b, by rwa [show a = x from hx2] at hab⟩
  · rintro ⟨v, hv⟩
    exact List.mem_map.mpr ⟨(x, v), hv, rfl⟩

theorem sortedKeys_node {l : Tree K T} {k : K} {i : T} {h0 : Int} {r : Tree K T} :
    SortedKeys (Tree.node l k i h0 r) ↔
      SortedKeys l ∧ SortedKeys r ∧ (∀ x ∈ keys l, x < k) ∧ ∀ y ∈ keys r, k < y := by
  simp only [SortedKeys, keys_node, List.pairwise_append, List.pairwise_cons]
  constructor
  · rintro ⟨pl, ⟨pk, pr⟩, hcross⟩
    exact ⟨pl, pr, fun x hx => (hcross x hx k (List.mem_cons_self k _)),
      fun y hy => pk y hy⟩
  · rintro ⟨pl, pr, hlk, hkr⟩
    refine ⟨pl, ⟨hkr, pr⟩, ?_⟩
    intro x hx y hy
    rcases List.mem_cons.mp hy with h5 | h5
    · subst h5; exact hlk x hx
    · exact lt_trans (hlk x hx) (hkr y h5)

theorem bstProp_of_sortedKeys {t : Tree K T} (hS : SortedKeys t) : BSTProp t := by
  induction t with
  | leaf => trivial
  | node l k i h0 r ihl ihr =>
    obtain ⟨sl, sr, hlk, hkr⟩ := sortedKeys_node.mp hS
    exact ⟨hlk, hkr, ihl sl, ihr sr⟩

theorem count_eq_length_entries (t : Tree K T) : count t = (entries t).length := by
  induction t with
  | leaf => rfl
  | node l k i h0 r ihl ihr => simp [Tree.count, Tree.entries, ihl, ihr]; omega

/-!
## `lookup` versus the entry list
-/

theorem lookup_eq_some_iff {t : Tree K T} (hS : SortedKeys t) {k : K} {v : T} :
    lookup k t = some v ↔ (k, v) ∈ entries t := by
  induction t with
  | leaf => simp [lookup, Tree.entries]
  | node l key item h0 r ihl ihr =>
    obtain ⟨sl, sr, hlk, hkr⟩ := sortedKeys_node.mp hS
    by_cases h1 : k = key
    · subst h1
      simp only [lookup, if_pos rfl, Tree.entries, List.mem_append, List.mem_cons]
      constructor
      · rintro h2
        exact Or.inr (Or.inl (by simpa using h2.symm))
      · rintro (h2 | h2 | h2)
        · exact absurd (hlk k (mem_keys.mpr ⟨v, h2⟩)) (lt_irrefl k)
        · simp [Prod.ext_iff] at h2; simp [h2]
        · exact absurd (hkr k (mem_keys.mpr ⟨v, h2⟩)) (lt_irrefl k)
    · by_cases h2 : k < key
      · simp only [lookup, if_neg h1, if_pos h2, Tree.entries, List.mem_append, List.mem_cons]
        rw [ihl sl]
        constructor
        · exact fun h3 => Or.inl h3
        · rintro (h3 | h3 | h3)
          · exact h3
          · exact absurd (congrArg Prod.fst h3) (by simpa using h1)
          · exact absurd (hkr k (mem_keys.mpr ⟨v, h3⟩)) (lt_asymm h2)
      · simp only [lookup, if_neg h1, if_neg h2, Tree.entries, List.mem_append, List.mem_cons]
        have h3 : key < k := lt_of_le_of_ne (not_lt.mp h2) (Ne.symm h1)
        rw [ihr sr]
        constructor
        · exact fun h4 => Or.inr (Or.inr h4)
        · rintro (h4 | h4 | h4)
          · exact absurd (hlk k (mem_keys.mpr ⟨v, h4⟩)) (lt_asymm h3)
          · exact absurd (congrArg Prod.fst h4) (by simpa using h1)
          · exact h4

theorem lookup_eq_none_iff {t : Tree K T} (hS : SortedKeys t) {k : K} :
    lookup k t = none ↔ k ∉ keys t := by
  constructor
  · intro h hk
    obtain ⟨v, hv⟩ := mem_keys.mp hk
    rw [(lookup_eq_some_iff hS).mpr hv] at h
    cases h
  · intro hk
    cases h : lookup k t with
    | none => rfl
    | some v =>
      exact absurd (mem_keys.mpr ⟨v, (lookup_eq_some_iff hS).mp h⟩) hk

theorem lookup_isSome_iff {t : Tree K T} (hS : SortedKeys t) {k : K} :
    (lookup k t).isSome = true ↔ k ∈ keys t := by
  constructor
  · intro h
    obtain ⟨v, hv⟩ := Option.isSome_iff_exists.mp h
    exact mem_keys.mpr ⟨v, (lookup_eq_some_iff hS).mp hv⟩
  · intro hk
    obtain ⟨v, hv⟩ := mem_keys.mp hk
    rw [(lookup_eq_some_iff hS).mpr hv]
    rfl

/-!
## Facts about `insEntry` and `eraseKey`
-/

theorem insEntry_append_left {k : K} {v : T} {key : K} {i : T}
    (h : k < key) (el er : List (K × T)) :
    insEntry k v (el ++ (key, i) :: er) = insEntry k v el ++ (key, i) :: er := by
  induction el with
  | nil => simp [insEntry, h]
  | cons p rest ih =>
    obtain ⟨k2, v2⟩ := p
    simp only [List.cons_append, insEntry]
    by_cases h1 : k < k2
    · simp [h1]
    · by_cases h2 : k2 < k
      · simp [h1, h2, ih]
      · simp [h1, h2]

theorem insEntry_append_right {k : K} {v : T} {key : K} {i : T}
    (hk : key < k) (el er : List (K × T)) (hel : ∀ x ∈ el.map Prod.fst, x < k) :
    insEntry k v (el ++ (key, i) :: er) = el ++ (key, i) :: insEntry k v er := by
  induction el with
  | nil =>
    simp only [List.nil_append, insEntry, if_neg (not_lt.mpr (le_of_lt hk)), if_pos hk]
  | cons p rest ih =>
    obtain ⟨k2, v2⟩ := p
    have h2 : k2 < k := hel k2 (by simp)
    have hih := ih (fun x hx => hel x (by simp [hx]))
    rw [List.cons_append]
    show insEntry k v ((k2, v2) :: (rest ++ (key, i) :: er)) = _
    rw [insEntry, if_neg (not_lt.mpr (le_of_lt h2)), if_pos h2, hih]
    simp

theorem mem_insEntry_self (k : K) (v : T) (es : List (K × T)) : (k, v) ∈ insEntry k v es := by
  induction es with
  | nil => simp [insEntry]
  | cons p rest ih =>
    obtain ⟨k2, v2⟩ := p
    by_cases h1 : k < k2
    · simp [insEntry, h1]
    · by_cases h2 : k2 < k
      · simp only [insEntry, if_neg h1, if_pos h2]
        exact List.mem_cons_of_mem _ ih
      · simp [insEntry, h1, h2]

theorem mem_keys_insEntry {x k : K} {v : T} {es : List (K × T)}
    (h : x ∈ (insEntry k v es).map Prod.fst) : x = k ∨ x ∈ es.map Prod.fst := by
  induction es with
  | nil => simp [insEntry] at h; exact Or.inl h
  | cons p rest ih =>
    obtain ⟨k2, v2⟩ := p
    by_cases h1 : k < k2
    · simp only [insEntry, if_pos h1] at h
      simpa using h
    · by_cases h2 : k2 < k
      · simp only [insEntry, if_neg h1, if_pos h2, List.map_cons, List.mem_cons] at h
        rcases h with h | h
        · exact Or.inr (by simp [h])
        · rcases ih h with h3 | h3
          · exact Or.inl h3
          · exact Or.inr (by simp [h3])
      · simp only [insEntry, if_neg h1, if_neg h2, List.map_cons, List.mem_cons] at h
        rcases h with h | h
        · exact Or.inl h
        · exact Or.inr (by simp [h])

theorem mem_insEntry_of_mem {k : K} {v : T} {es : List (K × T)} {p : K × T}
    (hp : p ∈ es) (hne : p.1 ≠ k) : p ∈ insEntry k v es := by
  induction es with
  | nil => cases hp
  | cons q rest ih =>
    obtain ⟨k2, v2⟩ := q
    rcases List.mem_cons.mp hp with h | h
    · subst h
      have hne2 : k2 ≠ k := hne
      by_cases h1 : k < k2
      · simp [insEntry, if_pos h1]
      · have h2 : k2 < k := lt_of_le_of_ne (not_lt.mp h1) hne2
        simp [insEntry, if_neg h1, if_pos h2]
    · by_cases h1 : k < k2
      · simp only [insEntry, if_pos h1]
        exact List.mem_cons_of_mem _ (List.mem_cons_of_mem _ h)
      · by_cases h2 : k2 < k
        · simp only [insEntry, if_neg h1, if_pos h2]
          exact List.mem_cons_of_mem _ (ih h)
        · simp only [insEntry, if_neg h1, if_neg h2]
          exact List.mem_cons_of_mem _ h

theorem mem_of_mem_insEntry {k : K} {v : T} {es : List (K × T)} {p : K × T}
    (hp : p ∈ insEntry k v es) (hne : p.1 ≠ k) : p ∈ es := by
  induction es with
  | nil =>
    simp only [insEntry, List.mem_singleton] at hp
    exact absurd (congrArg Prod.fst hp) hne
  | cons q rest ih =>
    obtain ⟨k2, v2⟩ := q
    by_cases h1 : k < k2
    · simp only [insEntry, if_pos h1, List.mem_cons] at hp
      rcases hp with h | h | h
      · exact absurd (congrArg Prod.fst h) hne
      · exact List.mem_cons.mpr (Or.inl h)
      · exact List.mem_cons_of_mem _ h
    · by_cases h2 : k2 < k
      · simp only [insEntry, if_neg h1, if_pos h2, List.mem_cons] at hp
        rcases hp with h | h
        · exact List.mem_cons.mpr (Or.inl h)
        · exact List.mem_cons_of_mem _ (ih h)
      · simp only [insEntry, if_neg h1, if_neg h2, List.mem_cons] at hp
        rcases hp with h | h
        · exact absurd (congrArg Prod.fst h) hne
        · exact List.mem_cons_of_mem _ h

theorem length_insEntry (k : K) (v : T) (es : List (K × T))
    (hS : List.Pairwise (· < ·) (es.map Prod.fst)) :
    (insEntry k v es).length =
      if k ∈ es.map Prod.fst then es.length else es.length + 1 := by
  induction es with
  | nil => simp [insEntry]
  | cons p rest ih =>
    obtain ⟨k2, v2⟩ := p
    simp only [List.map_cons, List.pairwise_cons] at hS
    obtain ⟨hall, hrest⟩ := hS
    by_cases h1 : k < k2
    · have hnot : k ∉ k2 :: rest.map Prod.fst := by
        simp only [List.mem_cons]
        push_neg
        exact ⟨ne_of_lt h1, fun hk => absurd (lt_trans h1 (hall k hk)) (lt_irrefl k)⟩
      simp [insEntry, h1, hnot]
    · by_cases h2 : k2 < k
      · have hne : ¬ k = k2 := fun h => absurd (h ▸ h2) (lt_irrefl k)
        simp only [insEntry, if_neg h1, if_pos h2, List.length_cons, ih hrest,
          List.map_cons, List.mem_cons, hne, false_or]
        split <;> omega
      · have heq : k = k2 := le_antisymm (not_lt.mp h2) (not_lt.mp h1)
        simp [insEntry, h1, h2, heq]

theorem sorted_insEntry (k : K) (v : T) (es : List (K × T))
    (hS : List.Pairwise (· < ·) (es.map Prod.fst)) :
    List.Pairwise (· < ·) ((insEntry k v es).map Prod.fst) := by
  induction es with
  | nil => simp [insEntry]
  | cons p rest ih =>
    obtain ⟨k2, v2⟩ := p
    simp only [List.map_cons, List.pairwise_cons] at hS
    obtain ⟨hall, hrest⟩ := hS
    by_cases h1 : k < k2
    · simp only [insEntry, if_pos h1, List.map_cons, List.pairwise_cons]
      refine ⟨?_, hall, hrest⟩
      intro x hx
      rcases List.mem_cons.mp hx with h | h
      · subst h; exact h1
      · exact lt_trans h1 (hall x h)
    · by_cases h2 : k2 < k
      · simp only [insEntry, if_neg h1, if_pos h2, List.map_cons, List.pairwise_cons]
        refine ⟨?_, ih hrest⟩
        intro x hx
        rcases mem_keys_insEntry hx with h | h
        · subst h; exact h2
        · exact hall x h
      · have heq : k = k2 := le_antisymm (not_lt.mp h2) (not_lt.mp h1)
        simp only [insEntry, if_neg h1, if_neg h2, List.map_cons, List.pairwise_cons]
        exact ⟨fun x hx => heq ▸ hall x hx, hrest⟩

theorem eraseKey_sublist (k : K) (es : List (K × T)) : (eraseKey k es).Sublist es := by
  induction es with
  | nil => simp [eraseKey]
  | cons p rest ih =>
    obtain ⟨k2, v2⟩ := p
    by_cases h1 : k = k2
    · simpa [eraseKey, h1] using List.sublist_cons_self (k2, v2) rest
    · simpa [eraseKey, h1] using List.Sublist.cons₂ (k2, v2) ih

theorem length_eraseKey {k : K} {es : List (K × T)} (h : k ∈ es.map Prod.fst) :
    (eraseKey k es).length + 1 = es.length := by
  induction es with
  | nil => cases h
  | cons p rest ih =>
    obtain ⟨k2, v2⟩ := p
    by_cases h1 : k = k2
    · simp [eraseKey, h1]
    · have h2 : k ∈ rest.map Prod.fst := by
        rcases List.mem_cons.mp h with h3 | h3
        · exact absurd h3 h1
        · exact h3
      simp [eraseKey, h1, ih h2]

theorem eraseKey_append {k : K} {i : T} (el er : List (K × T))
    (hne : k ∉ el.map Prod.fst) : eraseKey k (el ++ (k, i) :: er) = el ++ er := by
  induction el with
  | nil => simp [eraseKey]
  | cons p rest ih =>
    obtain ⟨k2, v2⟩ := p
    have h1 : ¬ k = k2 := by
      intro h; exact hne (by simp [h])
    simp only [List.cons_append, eraseKey, if_neg h1, List.cons.injEq, true_and]
    exact ih (fun h => hne (by simp [h]))

theorem mem_eraseKey_of_mem {k : K} {es : List (K × T)} {p : K × T}
    (hp : p ∈ es) (hne : p.1 ≠ k) : p ∈ eraseKey k es := by
  induction es with
  | nil => cases hp
  | cons q rest ih =>
    obtain ⟨k2, v2⟩ := q
    rcases List.mem_cons.mp hp with h | h
    · subst h
      have h1 : ¬ k = k2 := fun h2 => hne h2.symm
      simp [eraseKey, if_neg h1]
    · by_cases h1 : k = k2
      · simpa [eraseKey, h1] using h
      · simp only [eraseKey, if_neg h1, List.mem_cons]
        exact Or.inr (ih h)

theorem not_mem_keys_eraseKey {k : K} {es : List (K × T)}
    (hS : List.Pairwise (· < ·) (es.map Prod.fst)) :
    k ∉ (eraseKey k es).map Prod.fst := by
  induction es with
  | nil => simp [eraseKey]
  | cons p rest ih =>
    obtain ⟨k2, v2⟩ := p
    simp only [List.map_cons, List.pairwise_cons] at hS
    obtain ⟨hall, hrest⟩ := hS
    by_cases h1 : k = k2
    · subst h1
      simp only [eraseKey, if_pos rfl]
      intro hk
      exact absurd (hall k hk) (lt_irrefl k)
    · simp only [eraseKey, if_neg h1, List.map_cons, List.mem_cons]
      push_neg
      exact ⟨h1, ih hrest⟩

theorem sorted_eraseKey (k : K) (es : List (K × T))
    (hS : List.Pairwise (· < ·) (es.map Prod.fst)) :
    List.Pairwise (· < ·) ((eraseKey k es).map Prod.fst) :=
  hS.sublist ((eraseKey_sublist k es).map Prod.fst)

/-!
## The rebalancing step

Equations for each branch of `fixUp`'s loop body, and the central lemma: on
balanced, height-correct children whose recorded heights differ by at most 2,
the body's assert passes and the produced subtree is balanced and
height-correct, carries the same in-order entries, and has a height within
the stated bounds.
-/

theorem ht_leaf : (Tree.leaf : Tree K T).ht = -1 := rfl

theorem ht_node (l : Tree K T) (k : K) (i : T) (h0 : Int) (r : Tree K T) :
    (Tree.node l k i h0 r).ht = h0 := rfl

theorem rotateRight_node (ll : Tree K T) (lk : K) (li : T) (lh : Int) (lr : Tree K T)
    (k : K) (i : T) (h0 : Int) (r : Tree K T) :
    rotateRight (.node (.node ll lk li lh lr) k i h0 r) =
      .node ll lk li (1 + max ll.ht (1 + max lr.ht r.ht))
        (.node lr k i (1 + max lr.ht r.ht) r) := rfl

theorem rotateLeft_node (l : Tree K T) (k : K) (i : T) (h0 : Int)
    (rl : Tree K T) (rk : K) (ri : T) (rh : Int) (rr : Tree K T) :
    rotateLeft (.node l k i h0 (.node rl rk ri rh rr)) =
      .node (.node l k i (1 + max l.ht rl.ht) rl) rk ri
        (1 + max (1 + max l.ht rl.ht) rr.ht) rr := rfl

theorem fixNode_eq_assert (l : Tree K T) (k : K) (i : T) (h0 : Int) (r : Tree K T)
    (h1 : ¬ (l.ht - r.ht).natAbs ≤ 2) :
    fixNode (.node l k i h0 r) = .error .balanceAssert := by
  simp only [fixNode]
  rw [if_neg h1]

theorem fixNode_eq_nearly (l : Tree K T) (k : K) (i : T) (h0 : Int) (r : Tree K T)
    (h1 : (l.ht - r.ht).natAbs ≤ 1) :
    fixNode (.node l k i h0 r) = .ok (.node l k i (1 + max l.ht r.ht) r) := by
  simp only [fixNode]
  rw [if_pos (by omega), if_neg (by omega), if_neg (by omega)]

theorem fixNode_eq_ll (l : Tree K T) (k : K) (i : T) (h0 : Int) (r : Tree K T)
    (h2 : l.ht = r.ht + 2) (h3 : ¬ l.left.ht < l.right.ht) :
    fixNode (.node l k i h0 r) =
      .ok (rotateRight (.node l k i (1 + max l.ht r.ht) r)) := by
  simp only [fixNode]
  rw [if_pos (by omega), if_pos h2, if_neg h3]

theorem fixNode_eq_lr (l : Tree K T) (k : K) (i : T) (h0 : Int) (r : Tree K T)
    (h2 : l.ht = r.ht + 2) (h3 : l.left.ht < l.right.ht) :
    fixNode (.node l k i h0 r) =
      .ok (rotateRight (.node (rotateLeft l) k i (1 + max l.ht r.ht) r)) := by
  simp only [fixNode]
  rw [if_pos (by omega), if_pos h2, if_pos h3]

theorem fixNode_eq_rr (l : Tree K T) (k : K) (i : T) (h0 : Int) (r : Tree K T)
    (h2 : l.ht + 2 = r.ht) (h3 : ¬ r.left.ht > r.right.ht) :
    fixNode (.node l k i h0 r) =
      .ok (rotateLeft (.node l k i (1 + max l.ht r.ht) r)) := by
  simp only [fixNode]
  rw [if_pos (by omega), if_neg (by omega), if_pos h2, if_neg h3]

theorem fixNode_eq_rl (l : Tree K T) (k : K) (i : T) (h0 : Int) (r : Tree K T)
    (h2 : l.ht + 2 = r.ht) (h3 : r.left.ht > r.right.ht) :
    fixNode (.node l k i h0 r) =
      .ok (rotateLeft (.node l k i (1 + max l.ht r.ht) (rotateRight r))) := by
  simp only [fixNode]
  rw [if_pos (by omega), if_neg (by omega), if_pos h2, if_pos h3]

theorem fixNode_spec (l : Tree K T) (k : K) (i : T) (h0 : Int) (r : Tree K T)
    (hlH : HtOk l) (hlB : Balanced l) (hrH : HtOk r) (hrB : Balanced r)
    (hd : (l.ht - r.ht).natAbs ≤ 2) :
    ∃ t, fixNode (.node l k i h0 r) = .ok t ∧
      HtOk t ∧ Balanced t ∧
      entries t = entries l ++ (k, i) :: entries r ∧
      ((l.ht - r.ht).natAbs ≤ 1 → t.ht = 1 + max l.ht r.ht) ∧
      max l.ht r.ht ≤ t.ht ∧ t.ht ≤ 1 + max l.ht r.ht := by
  have hr1 := ht_ge hrH
  have hl1 := ht_ge hlH
  by_cases hA : l.ht = r.ht + 2
  · -- the left child is higher by exactly 2
    obtain ⟨ll, lk, li, lh, lr, rfl⟩ := exists_node_of_ht_nonneg (t := l) (by omega)
    obtain ⟨Hll, Hlr, Elh⟩ := hlH
    obtain ⟨Bll, Blr, Dl⟩ := hlB
    have hll1 := ht_ge Hll
    have hlr1 := ht_ge Hlr
    simp only [ht_node] at hA hd hl1
    by_cases hc : ll.ht < lr.ht
    · -- left-right: pre-rotate the child left, then rotate right
      obtain ⟨c, ck, ci, ch, d, rfl⟩ := exists_node_of_ht_nonneg (t := lr) (by omega)
      obtain ⟨Hc, Hd, Ech⟩ := Hlr
      obtain ⟨Bc, Bd, Dc⟩ := Blr
      have hc1 := ht_ge Hc
      have hd1 := ht_ge Hd
      simp only [ht_node] at hc Ech hlr1 Elh Dl
      refine ⟨_, fixNode_eq_lr _ k i h0 r (by simp only [ht_node]; omega)
        (by show ll.ht < (Tree.node c ck ci ch d).ht; simp only [ht_node]; exact hc),
        ?_, ?_, ?_, ?_, ?_, ?_⟩
      · rw [rotateLeft_node, rotateRight_node]
        exact ⟨⟨Hll, Hc, by simp [ht_node]⟩, ⟨Hd, hrH, by simp [ht_node]⟩, by simp [ht_node]⟩
      · rw [rotateLeft_node, rotateRight_node]
        refine ⟨⟨Bll, Bc, ?_⟩, ⟨Bd, hrB, ?_⟩, ?_⟩ <;> (try simp only [ht_node]) <;> omega
      · rw [rotateLeft_node, rotateRight_node]
        simp [Tree.entries, List.append_assoc]
      · intro hcontra
        simp only [ht_node] at hcontra
        omega
      · rw [rotateLeft_node, rotateRight_node]
        simp only [ht_node]
        omega
      · rw [rotateLeft_node, rotateRight_node]
        simp only [ht_node]
        omega
    · -- left-left: a single right rotation
      refine ⟨_, fixNode_eq_ll _ k i h0 r (by simp only [ht_node]; omega)
        (by show ¬ ll.ht < lr.ht; exact hc), ?_, ?_, ?_, ?_, ?_, ?_⟩
      · rw [rotateRight_node]
        exact ⟨Hll, ⟨Hlr, hrH, by simp [ht_node]⟩, by simp [ht_node]⟩
      · rw [rotateRight_node]
        refine ⟨Bll, ⟨Blr, hrB, ?_⟩, ?_⟩ <;> (try simp only [ht_node]) <;> omega
      · rw [rotateRight_node]
        simp [Tree.entries, List.append_assoc]
      · intro hcontra
        simp only [ht_node] at hcontra
        omega
      · rw [rotateRight_node]
        simp only [ht_node]
        omega
      · rw [rotateRight_node]
        simp only [ht_node]
        omega
  · by_cases hB : l.ht + 2 = r.ht
    · -- the right child is higher by exactly 2
      obtain ⟨rl, rk, ri, rh, rr, rfl⟩ := exists_node_of_ht_nonneg (t := r) (by omega)
      obtain ⟨Hrl, Hrr, Erh⟩ := hrH
      obtain ⟨Brl, Brr, Dr⟩ := hrB
      have hrl1 := ht_ge Hrl
      have hrr1 := ht_ge Hrr
      simp only [ht_node] at hB hd hr1 hA
      by_cases hc : rl.ht > rr.ht
      · -- right-left: pre-rotate the child right, then rotate left
        obtain ⟨c, ck, ci, ch, d, rfl⟩ := exists_node_of_ht_nonneg (t := rl) (by omega)
        obtain ⟨Hc, Hd, Ech⟩ := Hrl
        obtain ⟨Bc, Bd, Dc⟩ := Brl
        have hc1 := ht_ge Hc
        have hd1 := ht_ge Hd
        simp only [ht_node] at hc Ech hrl1 Erh Dr
        refine ⟨_, fixNode_eq_rl l k i h0 _ (by simp only [ht_node]; omega)
          (by show (Tree.node c ck ci ch d).ht > rr.ht; simp only [ht_node]; exact hc),
          ?_, ?_, ?_, ?_, ?_, ?_⟩
        · rw [rotateRight_node, rotateLeft_node]
          exact ⟨⟨hlH, Hc, by simp [ht_node]⟩, ⟨Hd, Hrr, by simp [ht_node]⟩, by simp [ht_node]⟩
        · rw [rotateRight_node, rotateLeft_node]
          refine ⟨⟨hlB, Bc, ?_⟩, ⟨Bd, Brr, ?_⟩, ?_⟩ <;> (try simp only [ht_node]) <;> omega
        · rw [rotateRight_node, rotateLeft_node]
          simp [Tree.entries, List.append_assoc]
        · intro hcontra
          simp only [ht_node] at hcontra
          omega
        · rw [rotateRight_node, rotateLeft_node]
          simp only [ht_node]
          omega
        · rw [rotateRight_node, rotateLeft_node]
          simp only [ht_node]
          omega
      · -- right-right: a single left rotation
        refine ⟨_, fixNode_eq_rr l k i h0 _ (by simp only [ht_node]; omega)
          (by show ¬ rl.ht > rr.ht; exact hc), ?_, ?_, ?_, ?_, ?_, ?_⟩
        · rw [rotateLeft_node]
          exact ⟨⟨hlH, Hrl, by simp [ht_node]⟩, Hrr, by simp [ht_node]⟩
        · rw [rotateLeft_node]
          refine ⟨⟨hlB, Brl, ?_⟩, Brr, ?_⟩ <;> (try simp only [ht_node]) <;> omega
        · rw [rotateLeft_node]
          simp [Tree.entries, List.append_assoc]
        · intro hcontra
          simp only [ht_node] at hcontra
          omega
        · rw [rotateLeft_node]
          simp only [ht_node]
          omega
        · rw [rotateLeft_node]
          simp only [ht_node]
          omega
    · -- heights differ by at most 1, no rotation
      have h1 : (l.ht - r.ht).natAbs ≤ 1 := by omega
      refine ⟨_, fixNode_eq_nearly l k i h0 r h1, ⟨hlH, hrH, rfl⟩, ⟨hlB, hrB, h1⟩,
        rfl, fun _ => rfl, by simp only [ht_node]; omega, by simp only [ht_node]; omega⟩

theorem insEntry_append_mid {k : K} {v i : T} (el er : List (K × T))
    (hel : ∀ x ∈ el.map Prod.fst, x < k) :
    insEntry k v (el ++ (k, i) :: er) = el ++ (k, v) :: er := by
  induction el with
  | nil => simp [insEntry]
  | cons p rest ih =>
    obtain ⟨k2, v2⟩ := p
    have h2 : k2 < k := hel k2 (by simp)
    have hih := ih (fun x hx => hel x (by simp [hx]))
    rw [List.cons_append]
    show insEntry k v ((k2, v2) :: (rest ++ (k, i) :: er)) = _
    rw [insEntry, if_neg (not_lt.mpr (le_of_lt h2)), if_pos h2, hih]
    simp

/-!
## The master lemma for `update`
-/

theorem updateAux_spec (k : K) (v : T) (t : Tree K T)
    (hH : HtOk t) (hB : Balanced t) (hS : SortedKeys t) :
    ∃ t2 ins, updateAux k v t = .ok (t2, ins) ∧
      HtOk t2 ∧ Balanced t2 ∧
      entries t2 = insEntry k v (entries t) ∧
      (ins = true ↔ k ∉ keys t) ∧
      (ins = true → t.ht ≤ t2.ht ∧ t2.ht ≤ t.ht + 1) ∧
      (ins = false → t2.ht = t.ht) := by
  induction t with
  | leaf =>
    have hfix := fixNode_eq_nearly (K := K) (T := T) .leaf k v 0 .leaf (by simp [ht_leaf])
    have h2 : (1 : Int) + max (Tree.leaf : Tree K T).ht (Tree.leaf : Tree K T).ht = 0 := by
      norm_num [ht_leaf]
    rw [h2] at hfix
    refine ⟨.node .leaf k v 0 .leaf, true, ?_, ?_, ?_, ?_, ?_, ?_, ?_⟩
    · simp only [updateAux, hfix]
    · exact ⟨trivial, trivial, by norm_num [ht_leaf]⟩
    · exact ⟨trivial, trivial, by simp [ht_leaf]⟩
    · simp [Tree.entries, insEntry]
    · simp [Tree.keys, Tree.entries]
    · intro _
      simp [ht_leaf, ht_node]
    · intro h3
      exact Bool.noConfusion h3
  | node l key item h0 r ihl ihr =>
    obtain ⟨Hl, Hr, Eh⟩ := hH
    obtain ⟨Bl, Br, Dh⟩ := hB
    obtain ⟨Sl, Sr, hlk, hkr⟩ := sortedKeys_node.mp hS
    rcases lt_trichotomy k key with hlt | heq | hgt
    · -- k < key: the new key goes into the left subtree
      have hne : ¬ k = key := ne_of_lt hlt
      obtain ⟨l2, ins, hl2, Hl2, Bl2, El2, Il2, Ghl2, Ehl2⟩ := ihl Hl Bl Sl
      have hkeys : k ∉ keys (Tree.node l key item h0 r) ↔ k ∉ keys l := by
        rw [keys_node]
        simp only [List.mem_append, List.mem_cons]
        constructor
        · intro hx hx2
          exact hx (Or.inl hx2)
        · intro hx hx2
          rcases hx2 with hx2 | hx2 | hx2
          · exact hx hx2
          · exact hne hx2
          · exact absurd (hkr k hx2) (lt_asymm hlt)
      have hent : insEntry k v (entries (Tree.node l key item h0 r)) =
          insEntry k v (entries l) ++ (key, item) :: entries r := by
        show insEntry k v (entries l ++ (key, item) :: entries r) = _
        exact insEntry_append_left hlt _ _
      cases ins with
      | true =>
        have hgrow := Ghl2 rfl
        have hd2 : (l2.ht - r.ht).natAbs ≤ 2 := by omega
        obtain ⟨t2, hfix, H2, B2, E2, Hnear, Hlo, Hhi⟩ :=
          fixNode_spec l2 key item h0 r Hl2 Bl2 Hr Br hd2
        refine ⟨t2, true, ?_, H2, B2, ?_, ?_, ?_, ?_⟩
        · simp only [updateAux, if_neg hne, if_pos hlt, hl2, if_pos]
          rw [hfix]
        · rw [E2, hent, El2]
        · simp only [true_iff, hkeys]
          exact Il2.mp rfl
        · intro _
          simp only [ht_node]
          by_cases hn : (l2.ht - r.ht).natAbs ≤ 1
          · have := Hnear hn
            omega
          · omega
        · intro h3
          exact Bool.noConfusion h3
      | false =>
        have hsame := Ehl2 rfl
        refine ⟨.node l2 key item h0 r, false, ?_, ?_, ?_, ?_, ?_, ?_, ?_⟩
        · simp only [updateAux, if_neg hne, if_pos hlt, hl2]
          simp
        · exact ⟨Hl2, Hr, by rw [Eh, hsame]⟩
        · exact ⟨Bl2, Br, by rw [hsame]; exact Dh⟩
        · rw [hent]
          show entries l2 ++ (key, item) :: entries r = _
          rw [El2]
        · constructor
          · intro h3
            exact Bool.noConfusion h3
          · intro hnot
            exact Il2.mpr (hkeys.mp hnot)
        · intro h3
          exact Bool.noConfusion h3
        · intro _
          rfl
    · -- k = key: overwrite in place, no fix-up
      subst heq
      refine ⟨.node l k v h0 r, false, ?_, ⟨Hl, Hr, Eh⟩, ⟨Bl, Br, Dh⟩, ?_, ?_, ?_, ?_⟩
      · simp [updateAux]
      · show entries l ++ (k, v) :: entries r = insEntry k v (entries l ++ (k, item) :: entries r)
        rw [insEntry_append_mid _ _ (by intro x hx; exact hlk x hx)]
      · constructor
        · intro h3
          exact Bool.noConfusion h3
        · intro hnot
          exact absurd (by rw [keys_node]; simp) hnot
      · intro h3
        exact Bool.noConfusion h3
      · intro _
        rfl
    · -- key < k: the new key goes into the right subtree
      have hne : ¬ k = key := (ne_of_lt hgt).symm
      have hnlt : ¬ k < key := not_lt.mpr (le_of_lt hgt)
      obtain ⟨r2, ins, hr2, Hr2, Br2, Er2, Ir2, Ghr2, Ehr2⟩ := ihr Hr Br Sr
      have hkeys : k ∉ keys (Tree.node l key item h0 r) ↔ k ∉ keys r := by
        rw [keys_node]
        simp only [List.mem_append, List.mem_cons]
        constructor
        · intro hx hx2
          exact hx (Or.inr (Or.inr hx2))
        · intro hx hx2
          rcases hx2 with hx2 | hx2 | hx2
          · exact absurd (hlk k hx2) (lt_asymm hgt)
          · exact hne hx2
          · exact hx hx2
      have hent : insEntry k v (entries (Tree.node l key item h0 r)) =
          entries l ++ (key, item) :: insEntry k v (entries r) := by
        show insEntry k v (entries l ++ (key, item) :: entries r) = _
        exact insEntry_append_right hgt _ _
          (fun x hx => lt_trans (hlk x (by rwa [Tree.keys])) hgt)
      cases ins with
      | true =>
        have hgrow := Ghr2 rfl
        have hd2 : (l.ht - r2.ht).natAbs ≤ 2 := by omega
        obtain ⟨t2, hfix, H2, B2, E2, Hnear, Hlo, Hhi⟩ :=
          fixNode_spec l key item h0 r2 Hl Bl Hr2 Br2 hd2
        refine ⟨t2, true, ?_, H2, B2, ?_, ?_, ?_, ?_⟩
        · simp only [updateAux, if_neg hne, if_neg hnlt, hr2, if_pos]
          rw [hfix]
        · rw [E2, hent, Er2]
        · simp only [true_iff, hkeys]
          exact Ir2.mp rfl
        · intro _
          simp only [ht_node]
          by_cases hn : (l.ht - r2.ht).natAbs ≤ 1
          · have := Hnear hn
            omega
          · omega
        · intro h3
          exact Bool.noConfusion h3
      | false =>
        have hsame := Ehr2 rfl
        refine ⟨.node l key item h0 r2, false, ?_, ?_, ?_, ?_, ?_, ?_, ?_⟩
        · simp only [updateAux, if_neg hne, if_neg hnlt, hr2]
          simp
        · exact ⟨Hl, Hr2, by rw [Eh, hsame]⟩
        · exact ⟨Bl, Br2, by rw [hsame]; exact Dh⟩
        · rw [hent]
          show entries l ++ (key, item) :: entries r2 = _
          rw [Er2]
        · constructor
          · intro h3
            exact Bool.noConfusion h3
          · intro hnot
            exact Ir2.mpr (hkeys.mp hnot)
        · intro h3
          exact Bool.noConfusion h3
        · intro _
          rfl

/-!
## The master lemmas for `remove`
-/

theorem eraseKey_append_of_mem {k : K} (el er : List (K × T)) (h : k ∈ el.map Prod.fst) :
    eraseKey k (el ++ er) = eraseKey k el ++ er := by
  induction el with
  | nil => cases h
  | cons p rest ih =>
    obtain ⟨k2, v2⟩ := p
    by_cases h1 : k = k2
    · simp [eraseKey, h1]
    · have h2 : k ∈ rest.map Prod.fst := by
        rcases List.mem_cons.mp h with h3 | h3
        · exact absurd h3 h1
        · exact h3
      simp [eraseKey, h1, ih h2]

theorem eraseKey_append_of_not_mem {k : K} (el er : List (K × T))
    (h : k ∉ el.map Prod.fst) :
    eraseKey k (el ++ er) = el ++ eraseKey k er := by
  induction el with
  | nil => rfl
  | cons p rest ih =>
    obtain ⟨k2, v2⟩ := p
    have h1 : ¬ k = k2 := fun h2 => h (by simp [h2])
    simp only [List.cons_append, eraseKey, if_neg h1, List.cons.injEq, true_and]
    exact ih (fun h2 => h (by simp [h2]))

theorem ht_node_nonneg {l : Tree K T} {k : K} {i : T} {h0 : Int} {r : Tree K T}
    (hH : HtOk (Tree.node l k i h0 r)) : 0 ≤ (Tree.node l k i h0 r).ht := by
  obtain ⟨Hl, Hr, Eh⟩ := hH
  have h1 := ht_ge Hl
  have h2 := ht_ge Hr
  simp only [ht_node]
  omega

theorem removeMax_spec (t : Tree K T) (hne : t ≠ .leaf)
    (hH : HtOk t) (hB : Balanced t) :
    ∃ mk mi t2, removeMax t = .ok (mk, mi, t2) ∧
      HtOk t2 ∧ Balanced t2 ∧
      entries t = entries t2 ++ [(mk, mi)] ∧
      t2.ht ≤ t.ht ∧ t.ht ≤ t2.ht + 1 := by
  induction t with
  | leaf => exact absurd rfl hne
  | node l k i h0 r ihl ihr =>
    obtain ⟨Hl, Hr, Eh⟩ := hH
    obtain ⟨Bl, Br, Dh⟩ := hB
    cases r with
    | leaf =>
      -- this node is the pluck target: no right child
      simp only [ht_leaf, ht_node] at Dh Eh
      have hl1 := ht_ge Hl
      have hlr : l.right = Tree.leaf := by
        cases l with
        | leaf => rfl
        | node a b c d e =>
          obtain ⟨Ha, He, Ed⟩ := Hl
          have ha1 := ht_ge Ha
          have he1 := ht_ge He
          simp only [ht_node] at Dh
          cases e with
          | leaf => rfl
          | node e1 e2 e3 e4 e5 =>
            have := ht_node_nonneg He
            simp only [ht_node] at this Ed
            omega
      refine ⟨k, i, l, ?_, Hl, Bl, ?_, ?_, ?_⟩
      · simp only [removeMax, hlr]
      · simp [Tree.entries]
      · simp only [ht_node]
        omega
      · simp only [ht_node]
        omega
    | node rl rk ri rh rr =>
      obtain ⟨mk, mi, r2, hr2, Hr2, Br2, Er2, Hle, Hge⟩ := ihr (by simp) Hr Br
      simp only [ht_node] at Dh Eh Hle Hge
      have hd2 : (l.ht - r2.ht).natAbs ≤ 2 := by omega
      obtain ⟨t2, hfix, H2, B2, E2, Hnear, Hlo, Hhi⟩ :=
        fixNode_spec l k i h0 r2 Hl Bl Hr2 Br2 hd2
      refine ⟨mk, mi, t2, ?_, H2, B2, ?_, ?_, ?_⟩
      · simp only [removeMax, hr2, hfix]
      · show entries l ++ (k, i) :: entries (Tree.node rl rk ri rh rr) = _
        rw [Er2, E2]
        simp [List.append_assoc]
      · simp only [ht_node]
        by_cases hn : (l.ht - r2.ht).natAbs ≤ 1
        · have := Hnear hn
          omega
        · omega
      · simp only [ht_node]
        by_cases hn : (l.ht - r2.ht).natAbs ≤ 1
        · have := Hnear hn
          omega
        · omega

theorem removeGo_spec (k : K) (t : Tree K T)
    (hH : HtOk t) (hB : Balanced t) (hS : SortedKeys t) :
    (k ∉ keys t → removeGo k t = .error .precondition) ∧
    (k ∈ keys t → ∃ t2, removeGo k t = .ok t2 ∧
      HtOk t2 ∧ Balanced t2 ∧
      entries t2 = eraseKey k (entries t) ∧
      t2.ht ≤ t.ht ∧ t.ht ≤ t2.ht + 1) := by
  induction t with
  | leaf =>
    refine ⟨fun _ => rfl, fun hmem => ?_⟩
    simp [Tree.keys, Tree.entries] at hmem
  | node l key item h0 r ihl ihr =>
    obtain ⟨Hl, Hr, Eh⟩ := hH
    obtain ⟨Bl, Br, Dh⟩ := hB
    obtain ⟨Sl, Sr, hlk, hkr⟩ := sortedKeys_node.mp hS
    rcases lt_trichotomy k key with hlt | heq | hgt
    · -- descend left
      have hmeml : k ∈ keys (Tree.node l key item h0 r) ↔ k ∈ keys l := by
        rw [keys_node]
        simp only [List.mem_append, List.mem_cons]
        constructor
        · rintro (hx | hx | hx)
          · exact hx
          · exact absurd hx (ne_of_lt hlt)
          · exact absurd (hkr k hx) (lt_asymm hlt)
        · exact fun hx => Or.inl hx
      constructor
      · intro habs
        have habsl : k ∉ keys l := fun hx => habs (hmeml.mpr hx)
        have herr := (ihl Hl Bl Sl).1 habsl
        simp only [removeGo, if_pos hlt, herr]
      · intro hmem
        obtain ⟨l2, hl2, Hl2, Bl2, El2, Hle, Hge⟩ := (ihl Hl Bl Sl).2 (hmeml.mp hmem)
        have hd2 : (l2.ht - r.ht).natAbs ≤ 2 := by omega
        obtain ⟨t2, hfix, H2, B2, E2, Hnear, Hlo, Hhi⟩ :=
          fixNode_spec l2 key item h0 r Hl2 Bl2 Hr Br hd2
        refine ⟨t2, ?_, H2, B2, ?_, ?_, ?_⟩
        · simp only [removeGo, if_pos hlt, hl2]
          exact hfix
        · show entries t2 = eraseKey k (entries l ++ (key, item) :: entries r)
          rw [eraseKey_append_of_mem _ _ (hmeml.mp hmem)]
          rw [E2, El2]
        · simp only [ht_node]
          by_cases hn : (l2.ht - r.ht).natAbs ≤ 1
          · have := Hnear hn
            omega
          · omega
        · simp only [ht_node]
          by_cases hn : (l2.ht - r.ht).natAbs ≤ 1
          · have := Hnear hn
            omega
          · omega
    · -- found the key
      subst heq
      have hmem0 : k ∈ keys (Tree.node l k item h0 r) := by
        rw [keys_node]
        simp
      constructor
      · intro habs
        exact absurd hmem0 habs
      · intro _
        have hnlt : ¬ k < k := lt_irrefl k
        cases l with
        | leaf =>
          refine ⟨r, ?_, Hr, Br, ?_, ?_, ?_⟩
          · simp [removeGo]
          · show entries r = eraseKey k (([] : List (K × T)) ++ (k, item) :: entries r)
            rw [eraseKey_append ([] : List (K × T)) _ (by simp)]
            simp
          · simp only [ht_leaf, ht_node] at Eh ⊢
            have := ht_ge Hr
            omega
          · simp only [ht_leaf, ht_node] at Eh ⊢
            have := ht_ge Hr
            omega
        | node ll lk li lh lr =>
          obtain ⟨pk, pi, l2, hpl, Hl2, Bl2, El2, Hle, Hge⟩ :=
            removeMax_spec (Tree.node ll lk li lh lr) (by simp) Hl Bl
          simp only [ht_node] at Eh Dh Hle Hge
          have hd2 : (l2.ht - r.ht).natAbs ≤ 2 := by omega
          obtain ⟨t2, hfix, H2, B2, E2, Hnear, Hlo, Hhi⟩ :=
            fixNode_spec l2 pk pi h0 r Hl2 Bl2 Hr Br hd2
          refine ⟨t2, ?_, H2, B2, ?_, ?_, ?_⟩
          · simp only [removeGo, if_neg hnlt, hpl]
            exact hfix
          · show entries t2 =
              eraseKey k (entries (Tree.node ll lk li lh lr) ++ (k, item) :: entries r)
            rw [eraseKey_append _ _ (by
              intro hx
              exact absurd (hlk k hx) (lt_irrefl k))]
            rw [E2, El2]
            simp [List.append_assoc]
          · simp only [ht_node]
            by_cases hn : (l2.ht - r.ht).natAbs ≤ 1
            · have := Hnear hn
              omega
            · omega
          · simp only [ht_node]
            by_cases hn : (l2.ht - r.ht).natAbs ≤ 1
            · have := Hnear hn
              omega
            · omega
    · -- descend right
      have hnlt : ¬ k < key := not_lt.mpr (le_of_lt hgt)
      have hmemr : k ∈ keys (Tree.node l key item h0 r) ↔ k ∈ keys r := by
        rw [keys_node]
        simp only [List.mem_append, List.mem_cons]
        constructor
        · rintro (hx | hx | hx)
          · exact absurd (hlk k hx) (lt_asymm hgt)
          · exact absurd hx (ne_of_gt hgt)
          · exact hx
        · exact fun hx => Or.inr (Or.inr hx)
      constructor
      · intro habs
        have habsr : k ∉ keys r := fun hx => habs (hmemr.mpr hx)
        have herr := (ihr Hr Br Sr).1 habsr
        simp only [removeGo, if_neg hnlt, if_pos hgt, herr]
      · intro hmem
        obtain ⟨r2, hr2, Hr2, Br2, Er2, Hle, Hge⟩ := (ihr Hr Br Sr).2 (hmemr.mp hmem)
        have hd2 : (l.ht - r2.ht).natAbs ≤ 2 := by omega
        obtain ⟨t2, hfix, H2, B2, E2, Hnear, Hlo, Hhi⟩ :=
          fixNode_spec l key item h0 r2 Hl Bl Hr2 Br2 hd2
        refine ⟨t2, ?_, H2, B2, ?_, ?_, ?_⟩
        · simp only [removeGo, if_neg hnlt, if_pos hgt, hr2]
          exact hfix
        · show entries t2 = eraseKey k (entries l ++ (key, item) :: entries r)
          have hkne : ¬ k = key := fun h2 => by
            rw [h2] at hgt
            exact lt_irrefl key hgt
          rw [eraseKey_append_of_not_mem _ _ (by
            intro hx
            exact absurd (hlk k hx) (lt_asymm hgt))]
          show _ = entries l ++ eraseKey k ((key, item) :: entries r)
          rw [show eraseKey k ((key, item) :: entries r) =
            (key, item) :: eraseKey k (entries r) by simp [eraseKey, hkne]]
          rw [E2, Er2]
        · simp only [ht_node]
          by_cases hn : (l.ht - r2.ht).natAbs ≤ 1
          · have := Hnear hn
            omega
          · omega
        · simp only [ht_node]
          by_cases hn : (l.ht - r2.ht).natAbs ≤ 1
          · have := Hnear hn
            omega
          · omega

/-!
## Map-level specifications and the reachability invariant
-/

/-- The representation invariant of a well-formed `AVLMap` object: correct
recorded heights, AVL balance, strictly ascending in-order keys, and a size
counter agreeing with the tree. -/
structure Inv (m : Map K T) : Prop where
  htok : HtOk m.root
  bal : Balanced m.root
  sorted : SortedKeys m.root
  size_eq : m.avlSize = (entries m.root).length

theorem update_spec (m : Map K T) (k : K) (v : T) (hI : Inv m) :
    ∃ m2, m.update k v = .ok m2 ∧ Inv m2 ∧
      entries m2.root = insEntry k v (entries m.root) ∧
      m2.avlSize = if k ∈ keys m.root then m.avlSize else m.avlSize + 1 := by
  obtain ⟨t2, ins, ht2, H2, B2, E2, I2, _, _⟩ :=
    updateAux_spec k v m.root hI.htok hI.bal hI.sorted
  have hsize : (if ins = true then m.avlSize + 1 else m.avlSize) =
      if k ∈ keys m.root then m.avlSize else m.avlSize + 1 := by
    by_cases hmem : k ∈ keys m.root
    · have : ins = false := by
        cases ins with
        | false => rfl
        | true => exact absurd hmem (I2.mp rfl)
      simp [this, hmem]
    · have : ins = true := I2.mpr hmem
      simp [this, hmem]
  refine ⟨⟨t2, if ins then m.avlSize + 1 else m.avlSize⟩, ?_, ?_, E2, hsize⟩
  · simp only [Map.update, ht2]
  · refine ⟨H2, B2, ?_, ?_⟩
    · show List.Pairwise (· < ·) (keys t2)
      show List.Pairwise (· < ·) ((entries t2).map Prod.fst)
      rw [E2]
      exact sorted_insEntry k v _ hI.sorted
    · show (if ins = true then m.avlSize + 1 else m.avlSize) = (entries t2).length
      rw [hsize, E2, length_insEntry k v _ hI.sorted, hI.size_eq]
      by_cases hmem : k ∈ keys m.root
      · rw [if_pos hmem, if_pos (by rwa [Tree.keys] at hmem)]
      · rw [if_neg hmem, if_neg (by rwa [Tree.keys] at hmem)]

theorem remove_spec (m : Map K T) (k : K) (hI : Inv m) (hmem : k ∈ keys m.root) :
    ∃ m2, m.remove k = .ok m2 ∧ Inv m2 ∧
      entries m2.root = eraseKey k (entries m.root) ∧
      m2.avlSize + 1 = m.avlSize := by
  obtain ⟨t2, ht2, H2, B2, E2, _, _⟩ :=
    (removeGo_spec k m.root hI.htok hI.bal hI.sorted).2 hmem
  have hlen : (eraseKey k (entries m.root)).length + 1 = (entries m.root).length :=
    length_eraseKey (by rwa [Tree.keys] at hmem)
  have hpos : 1 ≤ m.avlSize := by
    rw [hI.size_eq]
    omega
  refine ⟨⟨t2, m.avlSize - 1⟩, ?_, ?_, E2, by show m.avlSize - 1 + 1 = m.avlSize; omega⟩
  · simp only [Map.remove, ht2]
  · refine ⟨H2, B2, ?_, ?_⟩
    · show List.Pairwise (· < ·) ((entries t2).map Prod.fst)
      rw [E2]
      exact sorted_eraseKey k _ hI.sorted
    · show m.avlSize - 1 = (entries t2).length
      rw [E2]
      have := hI.size_eq
      omega

theorem remove_absent (m : Map K T) (k : K) (hmem : k ∉ keys m.root) :
    m.remove k = .error .precondition := by
  have h1 : removeGo k m.root = .error .precondition := by
    cases m with
    | mk root avlSize =>
      induction root with
      | leaf => rfl
      | node l key item h0 r ihl ihr =>
        show removeGo k (Tree.node l key item h0 r) = _
        rw [keys_node] at hmem
        simp only [List.mem_append, List.mem_cons] at hmem
        push_neg at hmem
        obtain ⟨h2, h3, h4⟩ := hmem
        rcases lt_trichotomy k key with hlt | heq | hgt
        · have := ihl (by simpa [Map.root] using h2)
          simp only [removeGo, if_pos hlt]
          rw [show removeGo k l = Except.error Err.precondition from this]
        · exact absurd heq h3
        · have := ihr (by simpa [Map.root] using h4)
          simp only [removeGo, if_neg (not_lt.mpr (le_of_lt hgt)), if_pos hgt]
          rw [show removeGo k r = Except.error Err.precondition from this]
  simp only [Map.remove, h1]

theorem reachable_inv {m : Map K T} (hR : Reachable m) : Inv m := by
  induction hR with
  | empty =>
    exact ⟨trivial, trivial, List.Pairwise.nil, rfl⟩
  | update hR2 hok ih =>
    rename_i m0 m2 k v
    obtain ⟨m3, hm3, hI3, _, _⟩ := update_spec m0 k v ih
    rw [hm3] at hok
    cases hok
    exact hI3
  | remove hR2 hok ih =>
    rename_i m0 m2 k
    by_cases hmem : k ∈ keys m0.root
    · obtain ⟨m3, hm3, hI3, _, _⟩ := remove_spec m0 k ih hmem
      rw [hm3] at hok
      cases hok
      exact hI3
    · rw [remove_absent m0 k hmem] at hok
      cases hok

/-!
## Iterator lemmas

`plug` rebuilds the whole tree from a position; `downLeft` and `climbUp`
preserve it, and the entry sequence a position has yet to visit is a suffix
of the tree's in-order entries.
-/

theorem plug_nil (t : Tree K T) : plug [] t = t := rfl

theorem plug_cons (f : Frame K T) (ctx : List (Frame K T)) (t : Tree K T) :
    plug (f :: ctx) t = plug ctx (plugF t f) := rfl

theorem entries_plug (ctx : List (Frame K T)) (t : Tree K T) :
    entries (plug ctx t) = doneCtx ctx ++ (entries t ++ restCtx ctx) := by
  induction ctx generalizing t with
  | nil => simp [plug, doneCtx, restCtx]
  | cons f ctx ih =>
    cases f with
    | fromLeft k i h r =>
      rw [plug_cons, ih]
      show doneCtx ctx ++ (entries (Tree.node t k i h r) ++ restCtx ctx) = _
      show _ = doneCtx ctx ++ (entries t ++ ((k, i) :: (entries r ++ restCtx ctx)))
      show doneCtx ctx ++ ((entries t ++ (k, i) :: entries r) ++ restCtx ctx) = _
      simp [List.append_assoc]
    | fromRight l k i h =>
      rw [plug_cons, ih]
      show doneCtx ctx ++ (entries (Tree.node l k i h t) ++ restCtx ctx) =
        (doneCtx ctx ++ (entries l ++ [(k, i)])) ++ (entries t ++ restCtx ctx)
      show doneCtx ctx ++ ((entries l ++ (k, i) :: entries t) ++ restCtx ctx) = _
      simp [List.append_assoc]

theorem downLeft_leaf (ctx : List (Frame K T)) : downLeft ctx (.leaf : Tree K T) = none := rfl

theorem downLeft_spec (t : Tree K T) (ctx : List (Frame K T)) (hne : t ≠ .leaf) :
    ∃ p, downLeft ctx t = some p ∧
      plug p.ctx p.focus = plug ctx t ∧
      (∃ x i h0 r, p.focus = Tree.node .leaf x i h0 r) ∧
      toVisit p = entries t ++ restCtx ctx := by
  induction t generalizing ctx with
  | leaf => exact absurd rfl hne
  | node l k i h0 r ihl ihr =>
    cases l with
    | leaf =>
      refine ⟨⟨ctx, .node .leaf k i h0 r⟩, rfl, rfl, ⟨k, i, h0, r, rfl⟩, ?_⟩
      show (k, i) :: (entries r ++ restCtx ctx) = entries (Tree.node .leaf k i h0 r) ++ restCtx ctx
      simp [Tree.entries]
    | node a b c d e =>
      obtain ⟨p, hp, hplug, hshape, hvisit⟩ := ihl (.fromLeft k i h0 r :: ctx) (by simp)
      refine ⟨p, hp, ?_, hshape, ?_⟩
      · rw [hplug, plug_cons]
        rfl
      · rw [hvisit]
        show entries (Tree.node a b c d e) ++ ((k, i) :: (entries r ++ restCtx ctx)) =
          entries (Tree.node (Tree.node a b c d e) k i h0 r) ++ restCtx ctx
        show _ = (entries (Tree.node a b c d e) ++ (k, i) :: entries r) ++ restCtx ctx
        simp [List.append_assoc]

theorem climbUp_spec (ctx : List (Frame K T)) (sub : Tree K T) :
    (climbUp ctx sub = none → restCtx ctx = []) ∧
    (∀ p, climbUp ctx sub = some p →
      plug p.ctx p.focus = plug ctx sub ∧
      (∃ l2 y i2 h2 r2, p.focus = Tree.node l2 y i2 h2 r2) ∧
      toVisit p = restCtx ctx) := by
  induction ctx generalizing sub with
  | nil =>
    refine ⟨fun _ => rfl, fun p hp => ?_⟩
    cases hp
  | cons f ctx ih =>
    cases f with
    | fromLeft k i h r =>
      refine ⟨fun hnone => ?_, fun p hp => ?_⟩
      · cases hnone
      · have hp2 : p = ⟨ctx, .node sub k i h r⟩ := by
          simpa [climbUp] using hp.symm
        subst hp2
        exact ⟨rfl, ⟨sub, k, i, h, r, rfl⟩, rfl⟩
    | fromRight l k i h =>
      refine ⟨fun hnone => ?_, fun p hp => ?_⟩
      · exact (ih (.node l k i h sub)).1 hnone
      · obtain ⟨hplug, hshape, hvisit⟩ := (ih (.node l k i h sub)).2 p hp
        exact ⟨hplug, hshape, hvisit⟩

theorem advancePos_spec (p : Pos K T) (l : Tree K T) (x : K) (i : T) (h0 : Int) (r : Tree K T)
    (hfoc : p.focus = Tree.node l x i h0 r) :
    (advancePos p = none → entries r ++ restCtx p.ctx = []) ∧
    (∀ q, advancePos p = some q →
      plug q.ctx q.focus = plug p.ctx p.focus ∧
      (∃ l2 y i2 h2 r2, q.focus = Tree.node l2 y i2 h2 r2) ∧
      toVisit q = entries r ++ restCtx p.ctx) := by
  cases r with
  | leaf =>
    have hadv : advancePos p = climbUp p.ctx (.node l x i h0 .leaf) := by
      simp [advancePos, hfoc]
    refine ⟨fun hnone => ?_, fun q hq => ?_⟩
    · rw [hadv] at hnone
      have := (climbUp_spec p.ctx (.node l x i h0 .leaf)).1 hnone
      simp [Tree.entries, this]
    · rw [hadv] at hq
      obtain ⟨hplug, hshape, hvisit⟩ := (climbUp_spec p.ctx (.node l x i h0 .leaf)).2 q hq
      refine ⟨by rw [hplug, hfoc], hshape, ?_⟩
      rw [hvisit]
      simp [Tree.entries]
  | node rl rk ri rh rr =>
    have hadv : advancePos p =
        downLeft (.fromRight l x i h0 :: p.ctx) (.node rl rk ri rh rr) := by
      simp [advancePos, hfoc]
    obtain ⟨q0, hq0, hplug, hshape, hvisit⟩ :=
      downLeft_spec (.node rl rk ri rh rr) (.fromRight l x i h0 :: p.ctx) (by simp)
    refine ⟨fun hnone => ?_, fun q hq => ?_⟩
    · rw [hadv, hq0] at hnone
      cases hnone
    · rw [hadv, hq0] at hq
      cases hq
      obtain ⟨x2, i2, h2, r2, hsh⟩ := hshape
      refine ⟨?_, ⟨.leaf, x2, i2, h2, r2, hsh⟩, ?_⟩
      · rw [hplug, plug_cons, hfoc]
        rfl
      · rw [hvisit]
        rfl

/-- The entries of the whole tree decompose around any position: what a
position has passed over, then what it has yet to visit. -/
theorem entries_decomp (p : Pos K T) (l : Tree K T) (x : K) (i : T) (h0 : Int) (r : Tree K T)
    (hfoc : p.focus = Tree.node l x i h0 r) :
    entries (plug p.ctx p.focus) =
      (doneCtx p.ctx ++ entries l) ++ ((x, i) :: (entries r ++ restCtx p.ctx)) := by
  rw [entries_plug, hfoc]
  show doneCtx p.ctx ++ ((entries l ++ (x, i) :: entries r) ++ restCtx p.ctx) = _
  simp [List.append_assoc]

/-!
## Successor facts for sorted lists
-/

theorem sorted_min {B : List K} {x : K} (hS : List.Pairwise (· < ·) (x :: B)) :
    ∀ z ∈ x :: B, x ≤ z := by
  intro z hz
  rcases List.mem_cons.mp hz with h | h
  · exact le_of_eq h.symm
  · exact le_of_lt ((List.pairwise_cons.mp hS).1 z h)

theorem sorted_max {A : List K} {x : K} (hS : List.Pairwise (· < ·) (A ++ [x])) :
    ∀ z ∈ A ++ [x], z ≤ x := by
  intro z hz
  rw [List.pairwise_append] at hS
  rcases List.mem_append.mp hz with h | h
  · exact le_of_lt (hS.2.2 z h x (by simp))
  · simp at h
    exact le_of_eq h

theorem sorted_succ {A B : List K} {x y : K}
    (hS : List.Pairwise (· < ·) (A ++ x :: y :: B)) :
    x < y ∧ ∀ z ∈ A ++ x :: y :: B, x < z → y ≤ z := by
  rw [List.pairwise_append] at hS
  obtain ⟨hA, hxy, hcross⟩ := hS
  have hx := List.pairwise_cons.mp hxy
  have hy := List.pairwise_cons.mp hx.2
  refine ⟨hx.1 y (by simp), ?_⟩
  intro z hz hxz
  rcases List.mem_append.mp hz with h | h
  · exact absurd hxz (lt_asymm (hcross z h x (by simp)))
  · rcases List.mem_cons.mp h with h2 | h2
    · exact absurd hxz (h2 ▸ lt_irrefl x)
    · rcases List.mem_cons.mp h2 with h3 | h3
      · exact le_of_eq h3.symm
      · exact le_of_lt (hy.1 z h3)

theorem entry_unique {es : List (K × T)} (hS : List.Pairwise (· < ·) (es.map Prod.fst))
    {p q : K × T} (hp : p ∈ es) (hq : q ∈ es) (h : p.1 = q.1) : p = q := by
  induction es with
  | nil => cases hp
  | cons a rest ih =>
    simp only [List.map_cons, List.pairwise_cons] at hS
    obtain ⟨hall, hrest⟩ := hS
    rcases List.mem_cons.mp hp with h1 | h1 <;> rcases List.mem_cons.mp hq with h2 | h2
    · rw [h1, h2]
    · subst h1
      exact absurd (h ▸ hall q.1 (List.mem_map.mpr ⟨q, h2, rfl⟩)) (lt_irrefl _)
    · subst h2
      exact absurd (h ▸ hall p.1 (List.mem_map.mpr ⟨p, h1, rfl⟩)) (lt_irrefl _)
    · exact ih hrest h1 h2

/-!
## The claims
-/

/-- C1: for every map state reachable from the empty map by any finite
sequence of `update` and `remove` calls, every node satisfies the AVL balance
condition (subtree heights, a missing child counting as -1, differ by at most
1) and every node's recorded height field equals 1 + max of its children's
heights. -/
theorem C1_avl_invariant {m : Map K T} (hR : Reachable m) : AvlNodeOk m.root :=
  avlNodeOk_of_htok_balanced (reachable_inv hR).htok (reachable_inv hR).bal

/-- C2: for every reachable map state, the in-order traversal yields the keys
in strictly ascending order; equivalently every node's left-subtree keys are
strictly below its key and its right-subtree keys strictly above. -/
theorem C2_bst_invariant {m : Map K T} (hR : Reachable m) :
    List.Pairwise (· < ·) (keys m.root) ∧ BSTProp m.root :=
  ⟨(reachable_inv hR).sorted, bstProp_of_sortedKeys (reachable_inv hR).sorted⟩

/-- C3: on every reachable map, `update k v` succeeds; afterwards `at k`
returns `v` and `hasKey k` holds; the entry count grows by exactly 1 when `k`
was absent and is unchanged when it was present; and exactly one entry for
`k` remains, holding the item written last. -/
theorem C3_update_roundtrip (m : Map K T) (k : K) (v : T) (hR : Reachable m) :
    ∃ m2, m.update k v = .ok m2 ∧
      m2.atKey k = .ok v ∧ m2.hasKey k = true ∧
      (m.hasKey k = false → m2.size = m.size + 1) ∧
      (m.hasKey k = true → m2.size = m.size) ∧
      (k, v) ∈ entries m2.root ∧
      ∀ p ∈ entries m2.root, p.1 = k → p = (k, v) := by
  have hI := reachable_inv hR
  obtain ⟨m2, hok, hI2, E2, hsize⟩ := update_spec m k v hI
  have hmem2 : (k, v) ∈ entries m2.root := by
    rw [E2]
    exact mem_insEntry_self k v _
  have hlook : lookup k m2.root = some v := (lookup_eq_some_iff hI2.sorted).mpr hmem2
  refine ⟨m2, hok, ?_, ?_, ?_, ?_, hmem2, ?_⟩
  · simp [Map.atKey, hlook]
  · simp [Map.hasKey, hlook]
  · intro hfalse
    have hnot : k ∉ keys m.root := by
      intro hmem
      have h2 := (lookup_isSome_iff hI.sorted).mpr hmem
      rw [Map.hasKey, h2] at hfalse
      cases hfalse
    show m2.avlSize = m.avlSize + 1
    rw [hsize, if_neg hnot]
  · intro htrue
    have hmem : k ∈ keys m.root := by
      rw [Map.hasKey] at htrue
      exact (lookup_isSome_iff hI.sorted).mp htrue
    show m2.avlSize = m.avlSize
    rw [hsize, if_pos hmem]
  · intro p hp hpk
    exact entry_unique hI2.sorted hp hmem2 (by rw [hpk])

/-- C4: on every reachable map, `remove k` hits its precondition assert
exactly when `k` is absent; when `k` is present it succeeds, leaves `k`
absent, shrinks the size by exactly 1, and preserves every other key's
stored item. -/
theorem C4_remove_spec (m : Map K T) (k : K) (hR : Reachable m) :
    (m.remove k = .error Err.precondition ↔ m.hasKey k = false) ∧
    (m.hasKey k = true → ∃ m2, m.remove k = .ok m2 ∧
      m2.hasKey k = false ∧ m2.size + 1 = m.size ∧
      ∀ k2, k2 ≠ k → lookup k2 m2.root = lookup k2 m.root) := by
  have hI := reachable_inv hR
  have hmem_iff : m.hasKey k = true ↔ k ∈ keys m.root := by
    rw [Map.hasKey]
    exact lookup_isSome_iff hI.sorted
  constructor
  · constructor
    · intro herr
      rcases Bool.eq_false_or_eq_true (m.hasKey k) with h | h
      · obtain ⟨m2, hok, _, _, _⟩ := remove_spec m k hI (hmem_iff.mp h)
        rw [hok] at herr
        cases herr
      · exact h
    · intro hfalse
      apply remove_absent
      intro hmem
      rw [hmem_iff.mpr hmem] at hfalse
      cases hfalse
  · intro htrue
    obtain ⟨m2, hok, hI2, E2, hsz⟩ := remove_spec m k hI (hmem_iff.mp htrue)
    refine ⟨m2, hok, ?_, hsz, ?_⟩
    · have hnot : k ∉ keys m2.root := by
        show k ∉ (entries m2.root).map Prod.fst
        rw [E2]
        exact not_mem_keys_eraseKey hI.sorted
      rw [Map.hasKey, (lookup_eq_none_iff hI2.sorted).mpr hnot]
      rfl
    · intro k2 hk2
      cases hl : lookup k2 m.root with
      | some v2 =>
        have hmem2 : (k2, v2) ∈ entries m.root := (lookup_eq_some_iff hI.sorted).mp hl
        have hmem3 : (k2, v2) ∈ entries m2.root := by
          rw [E2]
          exact mem_eraseKey_of_mem hmem2 hk2
        rw [(lookup_eq_some_iff hI2.sorted).mpr hmem3]
      | none =>
        have hnm : k2 ∉ keys m.root := (lookup_eq_none_iff hI.sorted).mp hl
        have hnm2 : k2 ∉ keys m2.root := by
          intro hmem
          apply hnm
          have hsub := (eraseKey_sublist k (entries m.root)).map Prod.fst
          have hmem4 : k2 ∈ (eraseKey k (entries m.root)).map Prod.fst := by
            rw [← E2]
            exact hmem
          exact hsub.subset hmem4
        rw [(lookup_eq_none_iff hI2.sorted).mpr hnm2]

/-- C6: on every reachable map state, the internal consistency assert
`abs(lh-rh) <= 2` in `fixUp` is unreachable, for the fix-up pass of any
`update` insertion and of any `remove`. -/
theorem C6_balance_assert_unreachable (m : Map K T) (k : K) (v : T) (hR : Reachable m) :
    m.update k v ≠ .error Err.balanceAssert ∧ m.remove k ≠ .error Err.balanceAssert := by
  have hI := reachable_inv hR
  constructor
  · obtain ⟨m2, hok, _⟩ := update_spec m k v hI
    rw [hok]
    intro h
    cases h
  · by_cases hmem : k ∈ keys m.root
    · obtain ⟨m2, hok, _⟩ := remove_spec m k hI hmem
      rw [hok]
      intro h
      cases h
    · rw [remove_absent m k hmem]
      intro h
      cases h

/-- C9: on every reachable map state, the assert
`assert(child->right == NULL)` in `pluckNode` never fails during `remove`:
the plucked node has no right child and its left child, when present, is a
leaf, forced by the AVL balance invariant. -/
theorem C9_pluck_assert_unreachable (m : Map K T) (k : K) (hR : Reachable m) :
    m.remove k ≠ .error Err.pluckAssert := by
  have hI := reachable_inv hR
  by_cases hmem : k ∈ keys m.root
  · obtain ⟨m2, hok, _⟩ := remove_spec m k hI hmem
    rw [hok]
    intro h
    cases h
  · rw [remove_absent m k hmem]
    intro h
    cases h

/-- C7: on every reachable map, `operator[]` returns the item stored at `k`,
first creating the entry with a default-constructed item (and growing the
size by 1) when `k` is absent; `at k` fails with a precondition violation
exactly when `k` is absent and, being a pure observer, never creates an
entry. -/
theorem C7_opIndex_at (m : Map K T) (k : K) [Inhabited T] (hR : Reachable m) :
    (m.atKey k = .error Err.precondition ↔ m.hasKey k = false) ∧
    (m.hasKey k = true → ∃ v, m.atKey k = .ok v ∧ m.opIndex k = .ok (m, v)) ∧
    (m.hasKey k = false → ∃ m2, m.opIndex k = .ok (m2, (default : T)) ∧
      m2.size = m.size + 1 ∧ m2.hasKey k = true ∧ m2.atKey k = .ok (default : T)) := by
  have hI := reachable_inv hR
  refine ⟨?_, ?_, ?_⟩
  · cases hl : lookup k m.root with
    | some v => simp [Map.atKey, Map.hasKey, hl]
    | none => simp [Map.atKey, Map.hasKey, hl]
  · intro htrue
    rw [Map.hasKey] at htrue
    obtain ⟨v, hv⟩ := Option.isSome_iff_exists.mp htrue
    refine ⟨v, by simp [Map.atKey, hv], ?_⟩
    simp [Map.opIndex, Map.hasKey, hv]
  · intro hfalse
    rw [Map.hasKey] at hfalse
    have hnone : lookup k m.root = none := by
      cases hl : lookup k m.root with
      | none => rfl
      | some v =>
        rw [hl] at hfalse
        cases hfalse
    have hnot : k ∉ keys m.root := (lookup_eq_none_iff hI.sorted).mp hnone
    obtain ⟨m2, hok, hI2, E2, hsize⟩ := update_spec m k default hI
    have hmem2 : (k, (default : T)) ∈ entries m2.root := by
      rw [E2]
      exact mem_insEntry_self k default _
    have hlook2 : lookup k m2.root = some default := (lookup_eq_some_iff hI2.sorted).mpr hmem2
    refine ⟨m2, ?_, ?_, ?_, ?_⟩
    · simp [Map.opIndex, Map.hasKey, hnone, hok, hlook2]
    · show m2.avlSize = m.avlSize + 1
      rw [hsize, if_neg hnot]
    · simp [Map.hasKey, hlook2]
    · simp [Map.atKey, hlook2]

/-- C8: on every reachable map state, `size()` equals the number of nodes
reachable from the root, i.e. the number of entries a full traversal
visits. -/
theorem C8_size_eq_count (m : Map K T) (hR : Reachable m) :
    m.size = count m.root ∧ m.size = (entries m.root).length := by
  have hI := reachable_inv hR
  rw [count_eq_length_entries]
  exact ⟨hI.size_eq, hI.size_eq⟩

/-- C5: on every reachable map, `begin()` is the end sentinel exactly on the
empty tree and otherwise references the minimum-key node; and from any
iterator position, one advance reaches the node holding the smallest key
strictly above the current one, or the end sentinel when the current key is
the maximum. -/
theorem C5_iterator_spec (m : Map K T) (hR : Reachable m) :
    (m.root = .leaf → m.begin = none) ∧
    (m.root ≠ .leaf → ∃ p x, m.begin = some p ∧ plug p.ctx p.focus = m.root ∧
      (∃ l i h0 r, p.focus = Tree.node l x i h0 r) ∧
      x ∈ keys m.root ∧ ∀ y ∈ keys m.root, x ≤ y) ∧
    ∀ p l x i h0 r, plug p.ctx p.focus = m.root → p.focus = Tree.node l x i h0 r →
      (advancePos p = none → ∀ y ∈ keys m.root, y ≤ x) ∧
      ∀ q, advancePos p = some q → plug q.ctx q.focus = m.root ∧
        ∃ l2 y i2 h2 r2, q.focus = Tree.node l2 y i2 h2 r2 ∧
          x < y ∧ y ∈ keys m.root ∧ ∀ z ∈ keys m.root, x < z → y ≤ z := by
  have hI := reachable_inv hR
  refine ⟨?_, ?_, ?_⟩
  · intro hleaf
    rw [Map.begin, hleaf]
    rfl
  · intro hne
    obtain ⟨p, hp, hplug, ⟨x, i, h0, r, hfoc⟩, hvisit⟩ := downLeft_spec m.root [] hne
    rw [plug_nil] at hplug
    have hv3 : (x, i) :: (entries r ++ restCtx p.ctx) = entries m.root := by
      have hv2 : toVisit p = entries m.root := by
        rw [hvisit]
        simp [restCtx]
      rw [← hv2]
      simp [toVisit, hfoc]
    have hkeys : keys m.root = x :: (entries r ++ restCtx p.ctx).map Prod.fst := by
      show (entries m.root).map Prod.fst = _
      rw [← hv3]
      simp
    refine ⟨p, x, hp, hplug, ⟨.leaf, i, h0, r, hfoc⟩, ?_, ?_⟩
    · rw [hkeys]
      simp
    · intro y hy
      have hs := hI.sorted
      rw [SortedKeys, hkeys] at hs
      rw [hkeys] at hy
      exact sorted_min hs y hy
  · intro p l x i h0 r hplug hfoc
    have hdec := entries_decomp p l x i h0 r hfoc
    rw [hplug] at hdec
    have hkeys : keys m.root = (doneCtx p.ctx ++ entries l).map Prod.fst ++
        x :: (entries r ++ restCtx p.ctx).map Prod.fst := by
      show (entries m.root).map Prod.fst = _
      rw [hdec]
      simp
    have hadv := advancePos_spec p l x i h0 r hfoc
    constructor
    · intro hnone y hy
      have hempty := hadv.1 hnone
      have hkeys2 : keys m.root = (doneCtx p.ctx ++ entries l).map Prod.fst ++ [x] := by
        rw [hkeys, hempty]
        rfl
      have hs := hI.sorted
      rw [SortedKeys, hkeys2] at hs
      rw [hkeys2] at hy
      exact sorted_max hs y hy
    · intro q hq
      obtain ⟨hplug2, ⟨l2, y, i2, h2, r2, hfoc2⟩, hvisit2⟩ := hadv.2 q hq
      have hv3 : (y, i2) :: (entries r2 ++ restCtx q.ctx) = entries r ++ restCtx p.ctx := by
        rw [← hvisit2]
        simp [toVisit, hfoc2]
      have hkeys2 : keys m.root = (doneCtx p.ctx ++ entries l).map Prod.fst ++
          x :: y :: (entries r2 ++ restCtx q.ctx).map Prod.fst := by
        rw [hkeys, ← hv3]
        simp
      have hs := hI.sorted
      rw [SortedKeys, hkeys2] at hs
      obtain ⟨hxy, hsucc⟩ := sorted_succ hs
      refine ⟨by rw [hplug2, hplug], l2, y, i2, h2, r2, hfoc2, hxy, ?_, ?_⟩
      · rw [hkeys2]
        simp
      · intro z hz hxz
        exact hsucc z (by rwa [hkeys2] at hz) hxz

/-- C10: the observers — `hasKey`, `at`, `size`, `begin`, `end`, iterator
advance and iterator equality — leave the map unchanged: in state-passing
form each returns the input map, and an advance preserves the tree the
iterator's position decomposes (the functional counterpart of leaving every
node and link untouched).  This holds for every map value, reachable states
included. -/
theorem C10_observers_frame [DecidableEq T] (m : Map K T) (k : K)
    (it a b : Option (Pos K T)) :
    (m.hasKeyRun k).2 = m ∧ (m.atKeyRun k).2 = m ∧ m.sizeRun.2 = m ∧
    m.beginRun.2 = m ∧ m.endRun.2 = m ∧ (advanceRun m it).2 = m ∧
    (iterEqRun m a b).2 = m ∧
    ∀ p q : Pos K T, advancePos p = some q → plug q.ctx q.focus = plug p.ctx p.focus := by
  refine ⟨rfl, rfl, rfl, rfl, rfl, rfl, rfl, ?_⟩
  intro p q hq
  cases hfoc : p.focus with
  | leaf =>
    rw [advancePos, hfoc] at hq
    cases hq
  | node l x i h0 r =>
    have h2 := ((advancePos_spec p l x i h0 r hfoc).2 q hq).1
    rw [hfoc] at h2
    exact h2

/-!
## Witnesses: the claim theorems applied to the concrete run
-/

theorem reachable_exm1 : Reachable exm1 :=
  Reachable.update (m := Map.empty) (k := 1) (v := 10) Reachable.empty rfl

theorem reachable_exm2 : Reachable exm2 :=
  Reachable.update (m := exm1) (k := 2) (v := 20) reachable_exm1 rfl

theorem reachable_exm3 : Reachable exm3 :=
  Reachable.update (m := exm2) (k := 3) (v := 30) reachable_exm2 rfl

theorem reachable_exm4 : Reachable exm4 :=
  Reachable.remove (m := exm3) (k := 2) reachable_exm3 rfl

/-- C1 exercised on the concrete four-operation run. -/
theorem C1_witness : AvlNodeOk exm4.root :=
  C1_avl_invariant reachable_exm4

/-- C2 exercised on the concrete four-operation run. -/
theorem C2_witness : List.Pairwise (· < ·) (keys exm4.root) ∧ BSTProp exm4.root :=
  C2_bst_invariant reachable_exm4

/-- C3 exercised on the concrete run: overwriting the absent key 2 again. -/
theorem C3_witness : ∃ m2, exm4.update 2 99 = .ok m2 ∧
    m2.atKey 2 = .ok 99 ∧ m2.hasKey 2 = true ∧
    (exm4.hasKey 2 = false → m2.size = exm4.size + 1) ∧
    (exm4.hasKey 2 = true → m2.size = exm4.size) ∧
    ((2 : Int), (99 : Int)) ∈ entries m2.root ∧
    ∀ p ∈ entries m2.root, p.1 = 2 → p = (2, 99) :=
  C3_update_roundtrip exm4 2 99 reachable_exm4

/-- C4 exercised on the concrete run at the present key 1. -/
theorem C4_witness :
    (exm4.remove 1 = .error Err.precondition ↔ exm4.hasKey 1 = false) ∧
    (exm4.hasKey 1 = true → ∃ m2, exm4.remove 1 = .ok m2 ∧
      m2.hasKey 1 = false ∧ m2.size + 1 = exm4.size ∧
      ∀ k2, k2 ≠ 1 → lookup k2 m2.root = lookup k2 exm4.root) :=
  C4_remove_spec exm4 1 reachable_exm4

/-- C5 exercised on the concrete run. -/
theorem C5_witness :
    (exm4.root = .leaf → exm4.begin = none) ∧
    (exm4.root ≠ .leaf → ∃ p x, exm4.begin = some p ∧ plug p.ctx p.focus = exm4.root ∧
      (∃ l i h0 r, p.focus = Tree.node l x i h0 r) ∧
      x ∈ keys exm4.root ∧ ∀ y ∈ keys exm4.root, x ≤ y) ∧
    ∀ p l x i h0 r, plug p.ctx p.focus = exm4.root → p.focus = Tree.node l x i h0 r →
      (advancePos p = none → ∀ y ∈ keys exm4.root, y ≤ x) ∧
      ∀ q, advancePos p = some q → plug q.ctx q.focus = exm4.root ∧
        ∃ l2 y i2 h2 r2, q.focus = Tree.node l2 y i2 h2 r2 ∧
          x < y ∧ y ∈ keys exm4.root ∧ ∀ z ∈ keys exm4.root, x < z → y ≤ z :=
  C5_iterator_spec exm4 reachable_exm4

/-- C6 exercised on the concrete run. -/
theorem C6_witness : exm4.update 5 50 ≠ .error Err.balanceAssert ∧
    exm4.remove 5 ≠ .error Err.balanceAssert :=
  C6_balance_assert_unreachable exm4 5 50 reachable_exm4

/-- C7 exercised on the concrete run at the absent key 7. -/
theorem C7_witness :
    (exm4.atKey 7 = .error Err.precondition ↔ exm4.hasKey 7 = false) ∧
    (exm4.hasKey 7 = true → ∃ v, exm4.atKey 7 = .ok v ∧ exm4.opIndex 7 = .ok (exm4, v)) ∧
    (exm4.hasKey 7 = false → ∃ m2, exm4.opIndex 7 = .ok (m2, (default : Int)) ∧
      m2.size = exm4.size + 1 ∧ m2.hasKey 7 = true ∧ m2.atKey 7 = .ok (default : Int)) :=
  C7_opIndex_at exm4 7 reachable_exm4

/-- C8 exercised on the concrete run. -/
theorem C8_witness : exm4.size = count exm4.root ∧ exm4.size = (entries exm4.root).length :=
  C8_size_eq_count exm4 reachable_exm4

/-- C9 exercised on the concrete run. -/
theorem C9_witness : exm4.remove 1 ≠ .error Err.pluckAssert :=
  C9_pluck_assert_unreachable exm4 1 reachable_exm4

end AVLSpec
